import Mathlib

/-!
Shallow embedding of the tiled-mode read path of `ImfInputFile.cpp`
(class `InputFile`): the tile-row cache, the buffered read algorithm
`bufferedReadPixels`, and `InputFile::setFrameBuffer`.

Machine model: byte memory is a two-level map (allocation id, byte
offset) so that distinct heap allocations never alias, matching C++
`new[]` semantics.  C++ exceptions propagate while leaving all
mutations through `ifd` in place, so fallible operations return
`Except (Err × Data) Data`: the error also carries the state at the
moment of the throw.

External collaborators (`TiledInputFile`, the `FrameBuffer` container,
`pixelTypeSize`) are not part of the translated source file; they are
modelled from the spec where noted.
-/

namespace Imf

/-- Pixel element type.  The source enum has `UINT`, `HALF`, `FLOAT`;
`other` stands for any unrecognized enum value a caller may have stored
in a slice (the source handles those in `default:` switch branches). -/
inductive PixelType where
  | UINT
  | HALF
  | FLOAT
  | other : Nat → PixelType
deriving DecidableEq

/-- Modelled from the spec: element sizes of the recognized pixel types
(`sizeof(unsigned int)`, `sizeof(half)`, `sizeof(float)`); `none` for an
unrecognized type, where the source `pixelTypeSize` fails. -/
def pixelTypeSize? : PixelType → Option Nat
  | .UINT => some 4
  | .HALF => some 2
  | .FLOAT => some 4
  | .other _ => none

/-- Line order from the file header (`ImfLineOrder.h`). -/
inductive LineOrder where
  | INCREASING_Y
  | DECREASING_Y
  | RANDOM_Y
deriving DecidableEq

/-- A frame-buffer slice: element type plus strided base addressing.
The C++ `base` is a `char*`; here it is an allocation id together with
a byte offset `baseOfs` inside that allocation, so that the pixel
`(x, y)` starts at byte `baseOfs + y*yStride + x*xStride`. -/
structure Slice where
  type : PixelType
  allocId : Nat
  baseOfs : Int
  xStride : Int
  yStride : Int
deriving DecidableEq

/-- A frame buffer: channel name to slice, iterated in list order. -/
abbrev FrameBuffer := List (String × Slice)

/-- Modelled from the spec: `FrameBuffer` lookup by channel name
(first match). -/
def fbFind : FrameBuffer → String → Option Slice
  | [], _ => none
  | (m, s) :: rest, n => if m = n then some s else fbFind rest n

/-- Modelled from the spec: `FrameBuffer::insert` stores the slice
under the name, replacing any previous slice for that name. -/
def fbInsert : FrameBuffer → String → Slice → FrameBuffer
  | [], n, s => [(n, s)]
  | (m, t) :: rest, n, s =>
    if m = n then (m, s) :: rest else (m, t) :: fbInsert rest n s

/-- Byte memory: allocation id and byte offset to byte value. -/
def Mem : Type := Nat → Int → Nat

/-- Write one byte. -/
def memWrite (m : Mem) (a : Nat) (o : Int) (v : Nat) : Mem :=
  fun a' o' => if a' = a then (if o' = o then v else m a' o') else m a' o'

/-- A single byte write: allocation id, byte offset, value. -/
structure Wr where
  aid : Nat
  ofs : Int
  val : Nat
deriving DecidableEq

/-- Apply a list of byte writes left to right. -/
def applyWrites (m : Mem) (ws : List Wr) : Mem :=
  ws.foldl (fun m w => memWrite m w.aid w.ofs w.val) m

/-- Byte address of byte `i` of pixel `(x, y)` inside a slice,
relative to the start of the allocation of the slice. -/
def sliceAddr (s : Slice) (x y : Int) (i : Nat) : Int :=
  s.baseOfs + y * s.yStride + x * s.xStride + (i : Int)

/-- Immutable per-file data: header channel list, line order, data
window, level-0 tile geometry, and the decoded content of the file.
`fileByte n t x y i` is byte `i` that the tiled decoder stores for
channel `n` at pixel `(x, y)` when decoding into a slice of element
type `t`; `badTiles` are the tiles whose decode fails with an error. -/
structure Geom where
  headerChannels : List (String × PixelType)
  lineOrder : LineOrder
  minX : Int
  maxX : Int
  minY : Int
  maxY : Int
  th : Nat
  tw : Nat
  fileByte : String → PixelType → Int → Int → Nat → Nat
  badTiles : List (Nat × Int)

/-- Header channel lookup (`ChannelList::find`). -/
def chFind : List (String × PixelType) → String → Option PixelType
  | [], _ => none
  | (m, t) :: rest, n => if m = n then some t else chFind rest n

/-- `tFile->levelWidth(0)`: width of the data window. -/
def levelWidth (g : Geom) : Int := g.maxX - g.minX + 1

/-- Modelled from the spec: `tFile->numXTiles(0)`, the number of tile
columns at level 0. -/
def numXTiles (g : Geom) : Nat :=
  ((levelWidth g).toNat + g.tw - 1) / g.tw

/-- Top scanline of tile row `j` (`dataWindowForTile(0, j, 0).min.y`). -/
def tileRowMinY (g : Geom) (j : Int) : Int := g.minY + j * g.th

/-- Bottom scanline of tile row `j`, clipped to the data window
(`dataWindowForTile(0, j, 0).max.y`). -/
def tileRowMaxY (g : Geom) (j : Int) : Int :=
  min (g.minY + (j + 1) * g.th - 1) g.maxY

/-- Left column of tile `i` in a row. -/
def tileMinX (g : Geom) (i : Nat) : Int := g.minX + i * g.tw

/-- Right column of tile `i` in a row, clipped to the data window. -/
def tileMaxX (g : Geom) (i : Nat) : Int :=
  min (g.minX + (i + 1) * g.tw - 1) g.maxX

/-- The mutable session state of `InputFile::Data` that the tiled read
path touches, together with the machine state.  `tFileFB` is the frame
buffer currently installed on the tiled decoder; `decoded` is the log
of successful `readTile` calls; `freed` is the log of released cache
allocations. -/
structure Data where
  tFileFB : FrameBuffer
  cachedBuffer : Option FrameBuffer
  cachedTileY : Int
  offset : Int
  mem : Mem
  nextAlloc : Nat
  freed : List Nat
  decoded : List (Nat × Int)

/-- Errors raised on the tiled read path. -/
inductive Err where
  | range
  | unknownType
  | tileRead
deriving DecidableEq

/-- The state carried by a result: the post state on success, the state
at the moment of the throw on failure (C++ exceptions do not undo
mutations made through `ifd`). -/
def resState : Except (Err × Data) Data → Data
  | .ok d => d
  | .error (_, d) => d

/-- The inclusive integer range `[a, b]` as a list, empty when `b < a`. -/
def intRange (a b : Int) : List Int :=
  (List.range (b + 1 - a).toNat).map (fun k : Nat => a + (k : Int))

/-- All `(y, x, i)` loop triples of a strided byte copy: `y` outer over
`[y0, y1]`, `x` over `[x0, x1]`, byte index `i` inner over `[0, sz)`. -/
def tripleList (y0 y1 x0 x1 : Int) (sz : Nat) : List (Int × Int × Nat) :=
  (intRange y0 y1).flatMap fun y =>
    (intRange x0 x1).flatMap fun x =>
      (List.range sz).map fun i => (y, x, i)

/-- The inner copy loop of `bufferedReadPixels` (lines 337-358) for one
channel: byte-by-byte strided copy from the cached slice to the target
slice, reading the live memory at each step. -/
def copySliceBytes (fromS toS : Slice) (m : Mem)
    (trs : List (Int × Int × Nat)) : Mem :=
  trs.foldl
    (fun m t =>
      memWrite m toS.allocId (sliceAddr toS t.2.1 t.1 t.2.2)
        (m fromS.allocId (sliceAddr fromS t.2.1 t.1 t.2.2)))
    m

/-- Writes performed by the tiled decoder for one channel over a pixel
rectangle.  Modelled from the spec: the decoder writes the decoded
bytes of the file through the installed slice of the channel; a slice
of unrecognized type contributes nothing (such a slice is never
installed by this component). -/
def channelRegionWrites (g : Geom) (n : String) (s : Slice)
    (y0 y1 x0 x1 : Int) : List Wr :=
  match pixelTypeSize? s.type with
  | none => []
  | some sz =>
    (intRange y0 y1).flatMap fun y =>
      (intRange x0 x1).flatMap fun x =>
        (List.range sz).map fun i =>
          ⟨s.allocId, sliceAddr s x y i, g.fileByte n s.type x y i⟩

/-- Writes performed by decoding tile `(i, j)` into frame buffer `fb`. -/
def decodeTileWrites (g : Geom) (fb : FrameBuffer) (i : Nat) (j : Int) :
    List Wr :=
  fb.flatMap fun p =>
    channelRegionWrites g p.1 p.2 (tileRowMinY g j) (tileRowMaxY g j)
      (tileMinX g i) (tileMaxX g i)

/-- Modelled from the spec: `tFile->readTile(i, j, 0)` decodes one tile
into the frame buffer installed on the tiled decoder, or fails with an
error surfaced to the caller. -/
def readTile (g : Geom) (d : Data) (i : Nat) (j : Int) :
    Except (Err × Data) Data :=
  if (i, j) ∈ g.badTiles then .error (.tileRead, d)
  else .ok { d with
    mem := applyWrites d.mem (decodeTileWrites g d.tFileFB i j),
    decoded := d.decoded ++ [(i, j)] }

/-- `for (int i = 0; i < numXTiles(0); ++i) readTile(i, j, 0)`
(lines 317-318), as a recursion over the list of tile columns. -/
def decodeTiles (g : Geom) (j : Int) : List Nat → Data → Except (Err × Data) Data
  | [], d => .ok d
  | i :: rest, d =>
    match readTile g d i j with
    | .error e => .error e
    | .ok d => decodeTiles g j rest d

/-- The allocation ids released when the cached frame buffer is deleted
(lines 224-253 and the destructor): one per slice whose type is matched
by the `switch`; an unrecognized type falls through without a release. -/
def cacheFreeIds : Option FrameBuffer → List Nat
  | none => []
  | some cb =>
    (cb.filter fun p => (pixelTypeSize? p.2.type).isSome).map
      fun p => p.2.allocId

/-- The allocation loop of the cache-miss path (lines 265-308): for
each channel of the saved user buffer, allocate one tile row of storage
and insert a slice addressed with the row offset; an unrecognized slice
type raises the unknown-pixel-type error after the earlier channels
have already been inserted. -/
def allocSlices (g : Geom) (d : Data) :
    List (String × Slice) → Except (Err × Data) Data
  | [] => .ok d
  | (n, s) :: rest =>
    match pixelTypeSize? s.type with
    | none => .error (.unknownType, d)
    | some sz =>
      allocSlices g
        { d with
          cachedBuffer := some (fbInsert (d.cachedBuffer.getD []) n
            ⟨s.type, d.nextAlloc, -(d.offset * sz), (sz : Int),
              (sz : Int) * levelWidth g⟩),
          nextAlloc := d.nextAlloc + 1 }
        rest

/-- The copy phase of `bufferedReadPixels` (lines 326-359): iterate the
channels of the cached frame buffer; look the name up in the saved user
buffer (modelled from the spec: a channel present only on one side is
skipped, only the intersection is copied); `pixelTypeSize` of the
target slice type is taken before the per-scanline loops and raises the
unknown-pixel-type error for an unrecognized type. -/
def copyPhase (g : Geom) (oldB : FrameBuffer) (y0 y1 : Int) (d : Data) :
    List (String × Slice) → Except (Err × Data) Data
  | [] => .ok d
  | (n, fs) :: rest =>
    match fbFind oldB n with
    | none => copyPhase g oldB y0 y1 d rest
    | some ts =>
      match pixelTypeSize? ts.type with
      | none => .error (.unknownType, d)
      | some sz =>
        copyPhase g oldB y0 y1 { d with mem := copySliceBytes fs ts d.mem (tripleList y0 y1 g.minX g.maxX sz) } rest

/-- One iteration of the tile-row loop of `bufferedReadPixels`
(lines 199-360): clip the scanline range to the row; on a cache miss
release the previous cache storage, rebuild the cached frame buffer
from the saved user buffer, install it on the tiled decoder and decode
the whole row; then copy the cached bytes into the user buffer. -/
def processRow (g : Geom) (oldB : FrameBuffer) (minY maxY : Int)
    (d : Data) (j : Int) : Except (Err × Data) Data :=
  if j ≠ d.cachedTileY then
    match allocSlices g
        { d with
          freed := d.freed ++ cacheFreeIds d.cachedBuffer,
          cachedBuffer := some [],
          cachedTileY := j,
          offset := tileRowMinY g j * levelWidth g + g.minX } oldB with
    | .error e => .error e
    | .ok d2 =>
      match decodeTiles g j (List.range (numXTiles g))
          { d2 with tFileFB := d2.cachedBuffer.getD [] } with
      | .error e => .error e
      | .ok d4 =>
        copyPhase g oldB (max minY (tileRowMinY g j))
          (min maxY (tileRowMaxY g j)) d4 (d4.cachedBuffer.getD [])
  else
    copyPhase g oldB (max minY (tileRowMinY g j))
      (min maxY (tileRowMaxY g j)) d (d.cachedBuffer.getD [])

/-- The `for (int j = yStart; j != yEnd; j += yStep)` loop control
(lines 174-199), with explicit fuel: the row indices visited in order. -/
def rowSeq (yStart yEnd yStep : Int) : Nat → List Int
  | 0 => []
  | fuel + 1 =>
    if yStart = yEnd then [] else yStart :: rowSeq (yStart + yStep) yEnd yStep fuel

/-- The tile rows visited by `bufferedReadPixels` for the normalized
scanline range `[minY, maxY]`, in visiting order (lines 167-186). -/
def visitRows (g : Geom) (minY maxY : Int) : List Int :=
  let minDy := (minY - g.minY).tdiv (g.th : Int)
  let maxDy := (maxY - g.minY).tdiv (g.th : Int)
  if g.lineOrder = .DECREASING_Y then
    rowSeq maxDy (minDy - 1) (-1) (maxDy - minDy + 1).toNat
  else
    rowSeq minDy (maxDy + 1) 1 (maxDy - minDy + 1).toNat

/-- The tile-row loop of `bufferedReadPixels` over a list of row
indices, as a recursion. -/
def processRows (g : Geom) (oldB : FrameBuffer) (minY maxY : Int) :
    List Int → Data → Except (Err × Data) Data
  | [], d => .ok d
  | j :: rest, d =>
    match processRow g oldB minY maxY d j with
    | .error e => .error e
    | .ok d => processRows g oldB minY maxY rest d

/-- `bufferedReadPixels` (lines 140-365): normalize the scanline range,
reject a range outside the data window, save the user frame buffer,
process every intersecting tile row, and reinstall the saved buffer. -/
def bufferedReadPixels (g : Geom) (d : Data) (s1 s2 : Int) :
    Except (Err × Data) Data :=
  let minY := min s1 s2
  let maxY := max s1 s2
  if minY < g.minY ∨ maxY > g.maxY then
    .error (.range, d)
  else
    match processRows g d.tFileFB minY maxY (visitRows g minY maxY) d with
    | .error e => .error e
    | .ok d' => .ok { d' with tFileFB := d.tFileFB }

/-- `InputFile::setFrameBuffer` in tiled mode (lines 446-476): if the
new frame buffer has a channel absent from the header channel list, or
one whose slice type differs from the header type for that name,
invalidate the tile-row cache; then install the buffer on the tiled
decoder. -/
def setFrameBuffer (g : Geom) (d : Data) (fb : FrameBuffer) : Data :=
  let d :=
    if fb.any (fun p =>
        match chFind g.headerChannels p.1 with
        | none => true
        | some t => decide (t ≠ p.2.type)) then
      { d with cachedTileY := -1 }
    else
      d
  { d with tFileFB := fb }

/-- The error kind of a result, if any. -/
def errKind : Except (Err × Data) Data → Option Err
  | .ok _ => none
  | .error (e, _) => some e

/-- The pixel offset stored for the cache of tile row `j`
(line 262): top-left pixel index of the row in row-major layout. -/
def rowOfs (g : Geom) (j : Int) : Int :=
  tileRowMinY g j * levelWidth g + g.minX

/-- The cached frame buffer the cache-miss path builds from the user
buffer (lines 265-308), with allocation ids handed out sequentially
from `a0`: channel `k` gets allocation `a0 + k`, element-sized
horizontal stride, row-sized vertical stride and base offset
`-(ofs * size)`. -/
def buildCache (g : Geom) (ofs : Int) (a0 : Nat) :
    List (String × Slice) → FrameBuffer
  | [] => []
  | (n, s) :: rest =>
    match pixelTypeSize? s.type with
    | none => []
    | some sz =>
      (n, ⟨s.type, a0, -(ofs * sz), (sz : Int), (sz : Int) * levelWidth g⟩)
        :: buildCache g ofs (a0 + 1) rest

/-- The decode writes of one whole tile row into buffer `cb`. -/
def rowDecodeWrites (g : Geom) (cb : FrameBuffer) (j : Int) : List Wr :=
  (List.range (numXTiles g)).flatMap fun i => decodeTileWrites g cb i j

/-- The canonical copy writes for target buffer `fb` over scanlines
`[y0, y1]`: each target slice receives the decoded file bytes of its
channel, independent of any cache state. -/
def copyCanonWrites (g : Geom) (fb : List (String × Slice))
    (y0 y1 : Int) : List Wr :=
  fb.flatMap fun p =>
    match pixelTypeSize? p.2.type with
    | none => []
    | some sz =>
      (tripleList y0 y1 g.minX g.maxX sz).map fun t =>
        ⟨p.2.allocId, sliceAddr p.2 t.2.1 t.1 t.2.2,
          g.fileByte p.1 p.2.type t.2.1 t.1 t.2.2⟩

/-- The canonical copy writes of one visited row. -/
def rowCanonWrites (g : Geom) (fb : FrameBuffer) (minY maxY j : Int) :
    List Wr :=
  copyCanonWrites g fb (max minY (tileRowMinY g j))
    (min maxY (tileRowMaxY g j))

/-- The canonical target writes of a whole readPixels call. -/
def canonWrites (g : Geom) (fb : FrameBuffer) (minY maxY : Int) :
    List Wr :=
  (visitRows g minY maxY).flatMap (rowCanonWrites g fb minY maxY)

/-- The last value a write list stores at an address, if any. -/
def lastVal : List Wr → Nat → Int → Option Nat
  | [], _, _ => none
  | w :: rest, a, o =>
    match lastVal rest a o with
    | some v => some v
    | none => if w.aid = a ∧ w.ofs = o then some w.val else none

/-- Row-`j` cache consistency of a session state with target buffer
`fb`: the cached buffer is exactly the canonical cache built from `fb`
for row `j`, its allocations are live and disjoint from the target
allocations, and they hold the decoded file bytes of row `j`. -/
def cacheRowOK (g : Geom) (fb : FrameBuffer) (d : Data) (j : Int) :
    Prop :=
  ∃ a0, d.cachedBuffer = some (buildCache g (rowOfs g j) a0 fb) ∧
    (∀ q ∈ buildCache g (rowOfs g j) a0 fb,
      q.2.allocId < d.nextAlloc ∧ ∀ p ∈ fb, q.2.allocId ≠ p.2.allocId) ∧
    (∀ q ∈ buildCache g (rowOfs g j) a0 fb, ∀ sz,
      pixelTypeSize? q.2.type = some sz →
      ∀ (y x : Int) (i : Nat),
        tileRowMinY g j ≤ y → y ≤ tileRowMaxY g j →
        g.minX ≤ x → x ≤ g.maxX → i < sz →
        d.mem q.2.allocId (sliceAddr q.2 x y i) =
          g.fileByte q.1 q.2.type x y i)

/-- Cache consistency: either the `-1` sentinel (no usable cache) or
row consistency for the cached row. -/
def cacheOK (g : Geom) (fb : FrameBuffer) (d : Data) : Prop :=
  d.cachedTileY = -1 ∨ cacheRowOK g fb d d.cachedTileY

/-- Equality of all session-state fields except the byte memory. -/
def sameSkeleton (d d' : Data) : Prop :=
  d'.tFileFB = d.tFileFB ∧ d'.cachedBuffer = d.cachedBuffer ∧
  d'.cachedTileY = d.cachedTileY ∧ d'.offset = d.offset ∧
  d'.nextAlloc = d.nextAlloc ∧ d'.freed = d.freed ∧ d'.decoded = d.decoded

/-- A small concrete tiled file: one HALF channel, data window
`[0,3] × [0,3]`, 2 × 2 tiles, increasing line order. -/
def gEx : Geom where
  headerChannels := [("A", .HALF)]
  lineOrder := .INCREASING_Y
  minX := 0
  maxX := 3
  minY := 0
  maxY := 3
  th := 2
  tw := 2
  fileByte := fun _ _ x y i => (x + y).toNat + i
  badTiles := []

/-- A concrete user frame buffer matching the header of `gEx`. -/
def fbEx : FrameBuffer := [("A", ⟨.HALF, 0, 0, 2, 8⟩)]

/-- A fresh session state for `gEx` with `fbEx` installed: no cache,
sentinel row index, allocation 0 owned by the caller. -/
def dEx : Data where
  tFileFB := fbEx
  cachedBuffer := none
  cachedTileY := -1
  offset := 0
  mem := fun _ _ => 0
  nextAlloc := 1
  freed := []
  decoded := []

/-- The same file with a decode failure on tile `(0, 0)`. -/
def gExBad : Geom := { gEx with badTiles := [(0, 0)] }

/-- A frame buffer with an unrecognized slice element type. -/
def fbExBadType : FrameBuffer := [("A", ⟨.other 7, 0, 0, 1, 4⟩)]

/-- A session state for `gEx` that already caches tile row 0. -/
def dExHit : Data :=
  { dEx with
    cachedTileY := 0,
    cachedBuffer := some [("A", ⟨.HALF, 1, 0, 2, 8⟩)],
    nextAlloc := 2 }

/-- A concrete cached tile-row buffer with the single channel `A`. -/
def fbC2cache : FrameBuffer := [("A", ⟨.HALF, 1, 0, 2, 8⟩)]

/-- A concrete target buffer with channel `A` matching the cache and an
extra channel `B` (absent from the cache) whose slice even has an
unrecognized element type and its own allocation 5. -/
def fbC2target : FrameBuffer :=
  [("A", ⟨.HALF, 0, 0, 2, 8⟩), ("B", ⟨.other 9, 5, 0, 1, 4⟩)]

end Imf

namespace Imf

theorem sameSkeleton_refl (d : Data) : sameSkeleton d d :=
  ⟨rfl, rfl, rfl, rfl, rfl, rfl, rfl⟩

theorem sameSkeleton_trans {d1 d2 d3 : Data} (h1 : sameSkeleton d1 d2)
    (h2 : sameSkeleton d2 d3) : sameSkeleton d1 d3 := by
  obtain ⟨a1, b1, c1, e1, f1, g1, i1⟩ := h1
  obtain ⟨a2, b2, c2, e2, f2, g2, i2⟩ := h2
  exact ⟨a2.trans a1, b2.trans b1, c2.trans c1, e2.trans e1,
    f2.trans f1, g2.trans g1, i2.trans i1⟩

/-- The copy phase changes nothing but the byte memory, also when it
fails midway. -/
theorem copyPhase_skeleton (g : Geom) (oldB : FrameBuffer) (y0 y1 : Int) :
    ∀ (lst : List (String × Slice)) (d : Data),
      sameSkeleton d (resState (copyPhase g oldB y0 y1 d lst)) := by
  intro lst
  induction lst with
  | nil => intro d; exact sameSkeleton_refl d
  | cons p rest ih =>
    intro d
    obtain ⟨n, fs⟩ := p
    show sameSkeleton d (resState (copyPhase g oldB y0 y1 d ((n, fs) :: rest)))
    rw [copyPhase]
    cases hf : fbFind oldB n with
    | none => dsimp only; exact ih d
    | some ts =>
      dsimp only
      cases hs : pixelTypeSize? ts.type with
      | none => exact sameSkeleton_refl d
      | some sz =>
        exact sameSkeleton_trans ⟨rfl, rfl, rfl, rfl, rfl, rfl, rfl⟩ (ih _)

/-- Ascending loop control: counting from `a` by `+1` until `a + k`. -/
theorem rowSeq_asc : ∀ (k : Nat) (a : Int),
    rowSeq a (a + k) 1 k = (List.range k).map (fun i : Nat => a + (i : Int)) := by
  intro k
  induction k with
  | zero => intro a; rfl
  | succ k ih =>
    intro a
    rw [rowSeq]
    have hne : a ≠ a + ((k + 1 : Nat) : Int) := by omega
    rw [if_neg hne]
    have hend : a + ((k + 1 : Nat) : Int) = a + 1 + (k : Int) := by
      push_cast
      ring
    rw [hend, ih (a + 1), List.range_succ_eq_map, List.map_cons, List.map_map]
    congr 1
    · simp
    · apply List.map_congr_left
      intro i _
      simp only [Function.comp_apply]
      push_cast
      ring

/-- Descending loop control: counting from `b` by `-1` until `b - k`. -/
theorem rowSeq_desc : ∀ (k : Nat) (b : Int),
    rowSeq b (b - k) (-1) k = (List.range k).map (fun i : Nat => b - (i : Int)) := by
  intro k
  induction k with
  | zero => intro b; rfl
  | succ k ih =>
    intro b
    rw [rowSeq]
    have hne : b ≠ b - ((k + 1 : Nat) : Int) := by omega
    rw [if_neg hne]
    have hend : b - ((k + 1 : Nat) : Int) = b + -1 - (k : Int) := by
      push_cast
      ring
    rw [hend, ih (b + -1), List.range_succ_eq_map, List.map_cons, List.map_map]
    congr 1
    · simp
    · apply List.map_congr_left
      intro i _
      simp only [Function.comp_apply]
      push_cast
      ring

/-- In a duplicate-free buffer, lookup of the name of a member returns
that member. -/
theorem fbFind_of_mem_nodup :
    ∀ (fb : FrameBuffer), fb.Pairwise (fun p q => p.1 ≠ q.1) →
      ∀ (n : String) (s : Slice), (n, s) ∈ fb → fbFind fb n = some s := by
  intro fb
  induction fb with
  | nil => intro _ n s h; exact absurd h (by simp)
  | cons p rest ih =>
    intro hnd n s h
    obtain ⟨m, t⟩ := p
    rw [fbFind]
    rcases List.mem_cons.mp h with he | hm
    · cases he
      rw [if_pos rfl]
    · have hne : m ≠ n := by
        have := (List.pairwise_cons.mp hnd).1 (n, s) hm
        exact this
      rw [if_neg hne]
      exact ih (List.pairwise_cons.mp hnd).2 n s hm

/-- Inserting a fresh name appends. -/
theorem fbInsert_append :
    ∀ (acc : FrameBuffer) (n : String) (s : Slice),
      (∀ q ∈ acc, q.1 ≠ n) → fbInsert acc n s = acc ++ [(n, s)] := by
  intro acc
  induction acc with
  | nil => intro n s _; rfl
  | cons q rest ih =>
    intro n s h
    obtain ⟨m, t⟩ := q
    rw [fbInsert]
    rw [if_neg (h (m, t) (List.mem_cons_self _ _))]
    rw [ih n s fun q' hq' => h q' (List.mem_cons_of_mem _ hq')]
    rfl

/-- Every allocation id of the canonical cache is at least the first
handed-out id. -/
theorem buildCache_lb (g : Geom) :
    ∀ (lst : List (String × Slice)) (ofs : Int) (a0 : Nat),
      ∀ q ∈ buildCache g ofs a0 lst, a0 ≤ q.2.allocId := by
  intro lst
  induction lst with
  | nil => intro ofs a0 q h; exact absurd h (by simp [buildCache])
  | cons p rest ih =>
    intro ofs a0 q h
    obtain ⟨n, s⟩ := p
    rw [buildCache] at h
    cases hs : pixelTypeSize? s.type with
    | none => rw [hs] at h; exact absurd h (by simp)
    | some sz =>
      rw [hs] at h
      rcases List.mem_cons.mp h with he | hm
      · subst he; exact le_refl _
      · exact Nat.le_of_succ_le (ih ofs (a0 + 1) q hm)

/-- The allocation ids of the canonical cache are pairwise distinct. -/
theorem buildCache_ids_pairwise (g : Geom) :
    ∀ (lst : List (String × Slice)) (ofs : Int) (a0 : Nat),
      (buildCache g ofs a0 lst).Pairwise
        (fun p q => p.2.allocId ≠ q.2.allocId) := by
  intro lst
  induction lst with
  | nil => intro ofs a0; exact List.Pairwise.nil
  | cons p rest ih =>
    intro ofs a0
    obtain ⟨n, s⟩ := p
    rw [buildCache]
    cases hs : pixelTypeSize? s.type with
    | none => exact List.Pairwise.nil
    | some sz =>
      refine List.pairwise_cons.mpr ⟨?_, ih ofs (a0 + 1)⟩
      intro q hq
      have := buildCache_lb g rest ofs (a0 + 1) q hq
      simp only []
      omega

/-- Member description of the canonical cache. -/
theorem buildCache_mem (g : Geom) :
    ∀ (lst : List (String × Slice)) (ofs : Int) (a0 : Nat),
      ∀ q ∈ buildCache g ofs a0 lst,
        ∃ (p : String × Slice) (sz : Nat), p ∈ lst ∧ q.1 = p.1 ∧
          q.2.type = p.2.type ∧ pixelTypeSize? q.2.type = some sz ∧
          q.2.xStride = (sz : Int) ∧
          q.2.yStride = (sz : Int) * levelWidth g ∧
          q.2.baseOfs = -(ofs * sz) ∧ a0 ≤ q.2.allocId ∧
          q.2.allocId < a0 + lst.length := by
  intro lst
  induction lst with
  | nil => intro ofs a0 q h; exact absurd h (by simp [buildCache])
  | cons p rest ih =>
    intro ofs a0 q h
    obtain ⟨n, s⟩ := p
    rw [buildCache] at h
    cases hs : pixelTypeSize? s.type with
    | none => rw [hs] at h; exact absurd h (by simp)
    | some sz =>
      rw [hs] at h
      rcases List.mem_cons.mp h with he | hm
      · subst he
        exact ⟨(n, s), sz, List.mem_cons_self _ _, rfl, rfl, hs, rfl, rfl,
          rfl, le_refl _, by simp⟩
      · obtain ⟨p, sz', hp, h1, h2, h3, h4, h5, h6, h7, h8⟩ :=
          ih ofs (a0 + 1) q hm
        exact ⟨p, sz', List.mem_cons_of_mem _ hp, h1, h2, h3, h4, h5, h6,
          by omega, by simp; omega⟩

/-- Two members of an id-distinct list with the same id are the same
member. -/
theorem eq_of_mem_pairwise_ids :
    ∀ (l : FrameBuffer), l.Pairwise (fun p q => p.2.allocId ≠ q.2.allocId) →
      ∀ p ∈ l, ∀ q ∈ l, p.2.allocId = q.2.allocId → p = q := by
  intro l
  induction l with
  | nil => intro _ p hp; exact absurd hp (by simp)
  | cons a rest ih =>
    intro hnd p hp q hq he
    obtain ⟨hhead, htail⟩ := List.pairwise_cons.mp hnd
    rcases List.mem_cons.mp hp with hpe | hpm
    · rcases List.mem_cons.mp hq with hqe | hqm
      · rw [hpe, hqe]
      · subst hpe
        exact absurd he (hhead q hqm)
    · rcases List.mem_cons.mp hq with hqe | hqm
      · subst hqe
        exact absurd he.symm (hhead p hpm)
      · exact ih htail p hpm q hqm he

/-- On a state whose cache slot holds `acc`, the allocation loop over a
duplicate-free, recognized channel list extends `acc` with exactly the
canonical cache and advances the allocator by the channel count. -/
theorem allocSlices_eq_buildCache (g : Geom) :
    ∀ (lst : List (String × Slice)) (d : Data) (acc : FrameBuffer),
      d.cachedBuffer = some acc →
      (∀ p ∈ lst, (pixelTypeSize? p.2.type).isSome = true) →
      (∀ p ∈ lst, ∀ q ∈ acc, q.1 ≠ p.1) →
      lst.Pairwise (fun p q => p.1 ≠ q.1) →
      allocSlices g d lst = .ok { d with
        cachedBuffer := some (acc ++ buildCache g d.offset d.nextAlloc lst),
        nextAlloc := d.nextAlloc + lst.length } := by
  intro lst
  induction lst with
  | nil =>
    intro d acc hacc _ _ _
    rw [allocSlices, buildCache]
    cases d
    simp_all
  | cons p rest ih =>
    intro d acc hacc hrec hdis hnd
    obtain ⟨n, s⟩ := p
    rw [allocSlices]
    cases hs : pixelTypeSize? s.type with
    | none =>
      have := hrec (n, s) (List.mem_cons_self _ _)
      rw [hs] at this
      exact absurd this (by simp)
    | some sz =>
      dsimp only
      rw [hacc]
      have hins : fbInsert ((some acc).getD []) n
          ⟨s.type, d.nextAlloc, -(d.offset * sz), (sz : Int),
            (sz : Int) * levelWidth g⟩ =
          acc ++ [(n, ⟨s.type, d.nextAlloc, -(d.offset * sz), (sz : Int),
            (sz : Int) * levelWidth g⟩)] :=
        fbInsert_append acc n _
          fun q hq => hdis (n, s) (List.mem_cons_self _ _) q hq
      rw [hins]
      rw [ih _ (acc ++ [(n, ⟨s.type, d.nextAlloc, -(d.offset * sz),
            (sz : Int), (sz : Int) * levelWidth g⟩)]) rfl
          (fun q hq => hrec q (List.mem_cons_of_mem _ hq))
          ?_ (List.pairwise_cons.mp hnd).2]
      · rw [buildCache, hs]
        congr 1
        simp [List.append_assoc]
        omega
      · intro q hq r hr
        rcases List.mem_append.mp hr with hra | hrb
        · exact hdis q (List.mem_cons_of_mem _ hq) r hra
        · have : r = (n, ⟨s.type, d.nextAlloc, -(d.offset * sz), (sz : Int),
              (sz : Int) * levelWidth g⟩) := by
            simpa using hrb
          rw [this]
          exact (List.pairwise_cons.mp hnd).1 q hq

/-- The allocation loop only builds the cached buffer and advances the
allocator, also when it fails midway. -/
theorem allocSlices_frame (g : Geom) :
    ∀ (lst : List (String × Slice)) (d : Data),
      (resState (allocSlices g d lst)).tFileFB = d.tFileFB ∧
      (resState (allocSlices g d lst)).cachedTileY = d.cachedTileY ∧
      (resState (allocSlices g d lst)).offset = d.offset ∧
      (resState (allocSlices g d lst)).mem = d.mem ∧
      (resState (allocSlices g d lst)).freed = d.freed ∧
      (resState (allocSlices g d lst)).decoded = d.decoded := by
  intro lst
  induction lst with
  | nil => intro d; exact ⟨rfl, rfl, rfl, rfl, rfl, rfl⟩
  | cons p rest ih =>
    intro d
    obtain ⟨n, s⟩ := p
    rw [allocSlices]
    cases hs : pixelTypeSize? s.type with
    | none => exact ⟨rfl, rfl, rfl, rfl, rfl, rfl⟩
    | some sz => exact ih _

/-- A decode step leaves everything but memory and the decode log
alone, also when the decode fails. -/
theorem readTile_frame (g : Geom) (d : Data) (i : Nat) (j : Int) :
    (resState (readTile g d i j)).tFileFB = d.tFileFB ∧
    (resState (readTile g d i j)).cachedBuffer = d.cachedBuffer ∧
    (resState (readTile g d i j)).cachedTileY = d.cachedTileY ∧
    (resState (readTile g d i j)).offset = d.offset ∧
    (resState (readTile g d i j)).nextAlloc = d.nextAlloc ∧
    (resState (readTile g d i j)).freed = d.freed := by
  unfold readTile
  split
  · exact ⟨rfl, rfl, rfl, rfl, rfl, rfl⟩
  · exact ⟨rfl, rfl, rfl, rfl, rfl, rfl⟩

/-- A successful decode step appends its tile to the decode log and
updates only memory. -/
theorem readTile_ok (g : Geom) (d : Data) (i : Nat) (j : Int) (d2 : Data)
    (h : readTile g d i j = .ok d2) :
    d2 = { d with
      mem := applyWrites d.mem (decodeTileWrites g d.tFileFB i j),
      decoded := d.decoded ++ [(i, j)] } := by
  unfold readTile at h
  split at h
  · exact absurd h (by simp)
  · exact (Except.ok.injEq _ _ ▸ h).symm

/-- The tile loop of a row leaves everything but memory and the decode
log alone, also when a decode fails. -/
theorem decodeTiles_frame (g : Geom) (j : Int) :
    ∀ (is : List Nat) (d : Data),
      (resState (decodeTiles g j is d)).tFileFB = d.tFileFB ∧
      (resState (decodeTiles g j is d)).cachedBuffer = d.cachedBuffer ∧
      (resState (decodeTiles g j is d)).cachedTileY = d.cachedTileY ∧
      (resState (decodeTiles g j is d)).offset = d.offset ∧
      (resState (decodeTiles g j is d)).nextAlloc = d.nextAlloc ∧
      (resState (decodeTiles g j is d)).freed = d.freed := by
  intro is
  induction is with
  | nil => intro d; exact ⟨rfl, rfl, rfl, rfl, rfl, rfl⟩
  | cons i rest ih =>
    intro d
    rw [decodeTiles]
    cases hr : readTile g d i j with
    | error e =>
      have hf := readTile_frame g d i j
      rw [hr] at hf
      exact hf
    | ok d2 =>
      have hf := readTile_frame g d i j
      rw [hr] at hf
      obtain ⟨a1, a2, a3, a4, a5, a6⟩ := hf
      obtain ⟨b1, b2, b3, b4, b5, b6⟩ := ih d2
      exact ⟨b1.trans a1, b2.trans a2, b3.trans a3, b4.trans a4,
        b5.trans a5, b6.trans a6⟩

/-- A successful tile loop appends exactly the visited tiles of row `j`
to the decode log. -/
theorem decodeTiles_ok_decoded (g : Geom) (j : Int) :
    ∀ (is : List Nat) (d d' : Data),
      decodeTiles g j is d = .ok d' →
      d'.decoded = d.decoded ++ is.map (fun i => (i, j)) := by
  intro is
  induction is with
  | nil =>
    intro d d' h
    cases h
    simp
  | cons i rest ih =>
    intro d d' h
    rw [decodeTiles] at h
    cases hr : readTile g d i j with
    | error e => rw [hr] at h; exact absurd h (by simp)
    | ok d2 =>
      rw [hr] at h
      have h2 := readTile_ok g d i j d2 hr
      have h3 := ih d2 d' h
      rw [h3, h2]
      simp

/-- A byte-copy loop for one channel writes only into the allocation of
the target slice. -/
theorem copySliceBytes_other (fromS toS : Slice) :
    ∀ (trs : List (Int × Int × Nat)) (m : Mem) (a : Nat) (o : Int),
      a ≠ toS.allocId → copySliceBytes fromS toS m trs a o = m a o := by
  intro trs
  induction trs with
  | nil => intro m a o _; rfl
  | cons t rest ih =>
    intro m a o h
    show copySliceBytes fromS toS (memWrite m toS.allocId _ _) rest a o = m a o
    rw [ih _ a o h]
    unfold memWrite
    rw [if_neg h]

/-- Recognized element sizes are positive. -/
theorem pixelTypeSize?_pos (t : PixelType) (sz : Nat)
    (h : pixelTypeSize? t = some sz) : 0 < sz := by
  cases t <;> simp [pixelTypeSize?] at h <;> omega

/-- Membership of the inclusive integer range. -/
theorem intRange_mem (lo hi a : Int) :
    a ∈ intRange lo hi ↔ lo ≤ a ∧ a ≤ hi := by
  unfold intRange
  constructor
  · intro h
    obtain ⟨k, hk, he⟩ := List.mem_map.mp h
    rw [List.mem_range] at hk
    omega
  · intro ⟨h1, h2⟩
    refine List.mem_map.mpr ⟨(a - lo).toNat, ?_, by omega⟩
    rw [List.mem_range]
    omega

/-- Membership of the copy loop triple list. -/
theorem tripleList_mem (y0 y1 x0 x1 : Int) (sz : Nat)
    (t : Int × Int × Nat) :
    t ∈ tripleList y0 y1 x0 x1 sz ↔
      (y0 ≤ t.1 ∧ t.1 ≤ y1) ∧ (x0 ≤ t.2.1 ∧ t.2.1 ≤ x1) ∧
        t.2.2 < sz := by
  unfold tripleList
  constructor
  · intro h
    obtain ⟨y, hy, h⟩ := List.mem_flatMap.mp h
    obtain ⟨x, hx, h⟩ := List.mem_flatMap.mp h
    obtain ⟨i, hi, he⟩ := List.mem_map.mp h
    rw [intRange_mem] at hy hx
    rw [List.mem_range] at hi
    subst he
    exact ⟨hy, hx, hi⟩
  · intro ⟨hy, hx, hi⟩
    obtain ⟨y, x, i⟩ := t
    refine List.mem_flatMap.mpr ⟨y, (intRange_mem _ _ _).mpr hy, ?_⟩
    refine List.mem_flatMap.mpr ⟨x, (intRange_mem _ _ _).mpr hx, ?_⟩
    exact List.mem_map.mpr ⟨i, List.mem_range.mpr hi, rfl⟩

theorem applyWrites_append (m : Mem) (ws1 ws2 : List Wr) :
    applyWrites m (ws1 ++ ws2) = applyWrites (applyWrites m ws1) ws2 :=
  List.foldl_append _ _ _ _

/-- Addresses never written keep their byte. -/
theorem applyWrites_notin : ∀ (ws : List Wr) (m : Mem) (a : Nat) (o : Int),
    (∀ w ∈ ws, ¬(w.aid = a ∧ w.ofs = o)) →
    applyWrites m ws a o = m a o := by
  intro ws
  induction ws with
  | nil => intro m a o _; rfl
  | cons w rest ih =>
    intro m a o h
    show applyWrites (memWrite m w.aid w.ofs w.val) rest a o = m a o
    rw [ih _ a o fun w' hw' => h w' (List.mem_cons_of_mem _ hw')]
    unfold memWrite
    have := h w (List.mem_cons_self _ _)
    by_cases ha : a = w.aid
    · rw [if_pos ha]
      rw [if_neg]
      intro ho
      exact this ⟨ha.symm, ho.symm⟩
    · rw [if_neg ha]

/-- Allocations never written keep all their bytes. -/
theorem applyWrites_notin_id (ws : List Wr) (m : Mem) (a : Nat) (o : Int)
    (h : ∀ w ∈ ws, w.aid ≠ a) : applyWrites m ws a o = m a o :=
  applyWrites_notin ws m a o fun w hw hc => h w hw hc.1

/-- Applying the same writes to memories that agree on a set of
allocations preserves the agreement there. -/
theorem applyWrites_congrOn (P : Nat → Prop) :
    ∀ (ws : List Wr) (m m' : Mem),
      (∀ a o, P a → m a o = m' a o) →
      ∀ (a : Nat) (o : Int), P a →
        applyWrites m ws a o = applyWrites m' ws a o := by
  intro ws
  induction ws with
  | nil => intro m m' h a o hp; exact h a o hp
  | cons w rest ih =>
    intro m m' h a o hp
    show applyWrites (memWrite m w.aid w.ofs w.val) rest a o =
      applyWrites (memWrite m' w.aid w.ofs w.val) rest a o
    refine ih _ _ ?_ a o hp
    intro a' o' hp'
    unfold memWrite
    by_cases ha : a' = w.aid
    · rw [if_pos ha, if_pos ha]
      by_cases ho : o' = w.ofs
      · rw [if_pos ho, if_pos ho]
      · rw [if_neg ho, if_neg ho]
        exact h a' o' hp'
    · rw [if_neg ha, if_neg ha]
      exact h a' o' hp'

/-- A written byte is the last value stored at its address. -/
theorem applyWrites_lastVal : ∀ (ws : List Wr) (m : Mem) (a : Nat) (o : Int),
    applyWrites m ws a o =
      match lastVal ws a o with
      | some v => v
      | none => m a o := by
  intro ws
  induction ws with
  | nil => intro m a o; rfl
  | cons w rest ih =>
    intro m a o
    show applyWrites (memWrite m w.aid w.ofs w.val) rest a o = _
    rw [ih]
    rw [lastVal]
    cases hl : lastVal rest a o with
    | some v => rfl
    | none =>
      unfold memWrite
      by_cases hc : w.aid = a ∧ w.ofs = o
      · rw [if_pos hc]
        rw [if_pos hc.1.symm, if_pos hc.2.symm]
      · rw [if_neg hc]
        by_cases ha : a = w.aid
        · rw [if_pos ha]
          rw [if_neg]
          intro ho
          exact hc ⟨ha.symm, ho.symm⟩
        · rw [if_neg ha]

/-- A hit somewhere in the list forces `lastVal` to produce a value. -/
theorem lastVal_isSome_of_mem : ∀ (ws : List Wr) (w : Wr),
    w ∈ ws → ∀ (a : Nat) (o : Int), w.aid = a → w.ofs = o →
    (lastVal ws a o).isSome = true := by
  intro ws
  induction ws with
  | nil => intro w hw; exact absurd hw (by simp)
  | cons w0 rest ih =>
    intro w hw a o ha ho
    rw [lastVal]
    cases hl : lastVal rest a o with
    | some v => rfl
    | none =>
      rcases List.mem_cons.mp hw with he | hm
      · subst he
        rw [if_pos ⟨ha, ho⟩]
        rfl
      · have := ih w hm a o ha ho
        rw [hl] at this
        exact absurd this (by simp)

/-- Any value `lastVal` produces is the value of some hit in the
list. -/
theorem lastVal_mem : ∀ (ws : List Wr) (a : Nat) (o : Int) (v : Nat),
    lastVal ws a o = some v →
    ∃ w ∈ ws, w.aid = a ∧ w.ofs = o ∧ w.val = v := by
  intro ws
  induction ws with
  | nil => intro a o v h; exact absurd h (by simp [lastVal])
  | cons w0 rest ih =>
    intro a o v h
    rw [lastVal] at h
    cases hl : lastVal rest a o with
    | some u =>
      rw [hl] at h
      cases h
      obtain ⟨w, hw, hp⟩ := ih a o v hl
      exact ⟨w, List.mem_cons_of_mem _ hw, hp⟩
    | none =>
      rw [hl] at h
      by_cases hc : w0.aid = a ∧ w0.ofs = o
      · rw [if_pos hc] at h
        cases h
        exact ⟨w0, List.mem_cons_self _ _, hc.1, hc.2, rfl⟩
      · rw [if_neg hc] at h
        exact absurd h (by simp)

/-- If an address is written and all writes to it agree on the value,
that value is what the final memory holds there. -/
theorem applyWrites_val (ws : List Wr) (m : Mem) (a : Nat) (o : Int)
    (v : Nat) (hmem : (⟨a, o, v⟩ : Wr) ∈ ws)
    (huni : ∀ w ∈ ws, w.aid = a → w.ofs = o → w.val = v) :
    applyWrites m ws a o = v := by
  rw [applyWrites_lastVal]
  cases hl : lastVal ws a o with
  | some u =>
    obtain ⟨w, hw, ha, ho, hv⟩ := lastVal_mem ws a o u hl
    rw [← hv]
    exact (huni w hw ha ho).symm ▸ rfl
  | none =>
    have := lastVal_isSome_of_mem ws ⟨a, o, v⟩ hmem a o rfl rfl
    rw [hl] at this
    exact absurd this (by simp)

/-- The live byte-copy loop equals applying the snapshot write list
when source and target live in different allocations. -/
theorem copySliceBytes_eq_applyWrites (fromS toS : Slice)
    (hne : fromS.allocId ≠ toS.allocId) :
    ∀ (trs : List (Int × Int × Nat)) (m : Mem),
      copySliceBytes fromS toS m trs = applyWrites m (trs.map fun t =>
        ⟨toS.allocId, sliceAddr toS t.2.1 t.1 t.2.2,
          m fromS.allocId (sliceAddr fromS t.2.1 t.1 t.2.2)⟩) := by
  intro trs
  induction trs with
  | nil => intro m; rfl
  | cons t rest ih =>
    intro m
    show copySliceBytes fromS toS
      (memWrite m toS.allocId (sliceAddr toS t.2.1 t.1 t.2.2)
        (m fromS.allocId (sliceAddr fromS t.2.1 t.1 t.2.2))) rest = _
    rw [ih]
    have hmap : (rest.map fun t' =>
        (⟨toS.allocId, sliceAddr toS t'.2.1 t'.1 t'.2.2,
          memWrite m toS.allocId (sliceAddr toS t.2.1 t.1 t.2.2)
            (m fromS.allocId (sliceAddr fromS t.2.1 t.1 t.2.2))
            fromS.allocId (sliceAddr fromS t'.2.1 t'.1 t'.2.2)⟩ : Wr)) =
        rest.map fun t' =>
        (⟨toS.allocId, sliceAddr toS t'.2.1 t'.1 t'.2.2,
          m fromS.allocId (sliceAddr fromS t'.2.1 t'.1 t'.2.2)⟩ : Wr) := by
      apply List.map_congr_left
      intro t' _
      have hmw : memWrite m toS.allocId (sliceAddr toS t.2.1 t.1 t.2.2)
          (m fromS.allocId (sliceAddr fromS t.2.1 t.1 t.2.2))
          fromS.allocId (sliceAddr fromS t'.2.1 t'.1 t'.2.2) =
          m fromS.allocId (sliceAddr fromS t'.2.1 t'.1 t'.2.2) := by
        unfold memWrite
        rw [if_neg hne]
      rw [hmw]
    rw [hmap]
    rfl

/-- A lookup that succeeds returns a member of the list. -/
theorem fbFind_mem : ∀ (fb : FrameBuffer) (n : String) (s : Slice),
    fbFind fb n = some s → (n, s) ∈ fb := by
  intro fb
  induction fb with
  | nil => intro n s h; exact absurd h (by simp [fbFind])
  | cons p rest ih =>
    intro n s h
    obtain ⟨m, t⟩ := p
    rw [fbFind] at h
    by_cases hm : m = n
    · rw [if_pos hm] at h
      cases h
      subst hm
      exact List.mem_cons_self _ _
    · rw [if_neg hm] at h
      exact List.mem_cons_of_mem _ (ih n s h)

/-- A header lookup that succeeds returns a member of the channel
list. -/
theorem chFind_mem : ∀ (lst : List (String × PixelType)) (n : String)
    (t : PixelType), chFind lst n = some t → (n, t) ∈ lst := by
  intro lst
  induction lst with
  | nil => intro n t h; exact absurd h (by simp [chFind])
  | cons p rest ih =>
    intro n t h
    obtain ⟨m, u⟩ := p
    rw [chFind] at h
    by_cases hm : m = n
    · rw [if_pos hm] at h
      cases h
      subst hm
      exact List.mem_cons_self _ _
    · rw [if_neg hm] at h
      exact List.mem_cons_of_mem _ (ih n t h)

/-- The allocation loop can only fail with the unknown-type error. -/
theorem allocSlices_error (g : Geom) :
    ∀ (lst : List (String × Slice)) (d : Data) (e : Err) (dx : Data),
      allocSlices g d lst = .error (e, dx) → e = .unknownType := by
  intro lst
  induction lst with
  | nil => intro d e dx h; exact absurd h (by simp [allocSlices])
  | cons p rest ih =>
    intro d e dx h
    obtain ⟨n, s⟩ := p
    rw [allocSlices] at h
    cases hs : pixelTypeSize? s.type with
    | none =>
      rw [hs] at h
      cases h
      rfl
    | some sz =>
      rw [hs] at h
      exact ih _ e dx h

/-- When every channel of the iterated list has a recognized type, the
allocation loop succeeds. -/
theorem allocSlices_ok_of_recognized (g : Geom) :
    ∀ (lst : List (String × Slice)) (d : Data),
      (∀ p ∈ lst, (pixelTypeSize? p.2.type).isSome = true) →
      ∃ d2, allocSlices g d lst = .ok d2 := by
  intro lst
  induction lst with
  | nil => intro d _; exact ⟨d, rfl⟩
  | cons p rest ih =>
    intro d hrec
    obtain ⟨n, s⟩ := p
    rw [allocSlices]
    cases hs : pixelTypeSize? s.type with
    | none =>
      have := hrec (n, s) (List.mem_cons_self _ _)
      rw [hs] at this
      exact absurd this (by simp)
    | some sz =>
      exact ih _ fun q hq => hrec q (List.mem_cons_of_mem _ hq)

/-- The copy phase can only fail with the unknown-type error. -/
theorem copyPhase_error (g : Geom) (oldB : FrameBuffer) (y0 y1 : Int) :
    ∀ (cb : List (String × Slice)) (d : Data) (e : Err) (dx : Data),
      copyPhase g oldB y0 y1 d cb = .error (e, dx) → e = .unknownType := by
  intro cb
  induction cb with
  | nil => intro d e dx h; exact absurd h (by simp [copyPhase])
  | cons p rest ih =>
    intro d e dx h
    obtain ⟨n, fs⟩ := p
    rw [copyPhase] at h
    cases hf : fbFind oldB n with
    | none =>
      rw [hf] at h
      exact ih d e dx h
    | some ts =>
      rw [hf] at h
      dsimp only at h
      cases hps : pixelTypeSize? ts.type with
      | none =>
        rw [hps] at h
        cases h
        rfl
      | some sz =>
        rw [hps] at h
        exact ih _ e dx h

/-- When every target slice that a cached channel resolves to has a
recognized type, the copy phase succeeds. -/
theorem copyPhase_ok_of_recognized (g : Geom) (oldB : FrameBuffer)
    (y0 y1 : Int)
    (hrec : ∀ (n : String) (ts : Slice), fbFind oldB n = some ts →
      (pixelTypeSize? ts.type).isSome = true) :
    ∀ (cb : List (String × Slice)) (d : Data),
      ∃ d', copyPhase g oldB y0 y1 d cb = .ok d' := by
  intro cb
  induction cb with
  | nil => intro d; exact ⟨d, rfl⟩
  | cons p rest ih =>
    intro d
    obtain ⟨n, fs⟩ := p
    rw [copyPhase]
    cases hf : fbFind oldB n with
    | none => exact ih d
    | some ts =>
      dsimp only
      have hsome := hrec n ts hf
      cases hps : pixelTypeSize? ts.type with
      | none => rw [hps] at hsome; exact absurd hsome (by simp)
      | some sz => exact ih _

/-- A tile loop can only fail with the tile-read error. -/
theorem decodeTiles_error (g : Geom) (j : Int) :
    ∀ (is : List Nat) (d : Data) (e : Err) (dx : Data),
      decodeTiles g j is d = .error (e, dx) → e = .tileRead := by
  intro is
  induction is with
  | nil => intro d e dx h; exact absurd h (by simp [decodeTiles])
  | cons i rest ih =>
    intro d e dx h
    rw [decodeTiles] at h
    cases hr : readTile g d i j with
    | error ep =>
      rw [hr] at h
      cases h
      unfold readTile at hr
      split at hr
      · cases hr; rfl
      · exact absurd hr (by simp)
    | ok d2 =>
      rw [hr] at h
      exact ih d2 e dx h

/-- A row iteration can only fail with the unknown-type or tile-read
error, never with a range error. -/
theorem processRow_error (g : Geom) (oldB : FrameBuffer) (minY maxY : Int)
    (d : Data) (j : Int) (e : Err) (dx : Data)
    (h : processRow g oldB minY maxY d j = .error (e, dx)) :
    e = .unknownType ∨ e = .tileRead := by
  unfold processRow at h
  by_cases hc : j ≠ d.cachedTileY
  · rw [if_pos hc] at h
    cases ha : allocSlices g { d with
        freed := d.freed ++ cacheFreeIds d.cachedBuffer,
        cachedBuffer := some [],
        cachedTileY := j,
        offset := tileRowMinY g j * levelWidth g + g.minX } oldB with
    | error ep =>
      rw [ha] at h
      cases h
      exact Or.inl (allocSlices_error g oldB _ e dx ha)
    | ok d2 =>
      rw [ha] at h
      dsimp only at h
      cases hd : decodeTiles g j (List.range (numXTiles g))
          { d2 with tFileFB := d2.cachedBuffer.getD [] } with
      | error ep =>
        rw [hd] at h
        cases h
        exact Or.inr (decodeTiles_error g j _ _ e dx hd)
      | ok d4 =>
        rw [hd] at h
        dsimp only at h
        exact Or.inl (copyPhase_error g oldB _ _ _ d4 e dx h)
  · rw [if_neg hc] at h
    exact Or.inl (copyPhase_error g oldB _ _ _ d e dx h)

/-- The whole row loop can only fail with the unknown-type or
tile-read error. -/
theorem processRows_error (g : Geom) (oldB : FrameBuffer)
    (minY maxY : Int) :
    ∀ (rows : List Int) (d : Data) (e : Err) (dx : Data),
      processRows g oldB minY maxY rows d = .error (e, dx) →
      e = .unknownType ∨ e = .tileRead := by
  intro rows
  induction rows with
  | nil => intro d e dx h; exact absurd h (by simp [processRows])
  | cons j rest ih =>
    intro d e dx h
    rw [processRows] at h
    cases hp : processRow g oldB minY maxY d j with
    | error ep =>
      rw [hp] at h
      cases h
      exact processRow_error g oldB minY maxY d j e dx hp
    | ok d2 =>
      rw [hp] at h
      exact ih d2 e dx h

/-- A product with a positive factor that lands strictly inside a
factor-sized window around zero is zero. -/
theorem int_mul_eq_of_abs_lt (c k e : Int) (hc : 0 < c) (h : c * k = e)
    (he : |e| < c) : k = 0 ∧ e = 0 := by
  by_cases hk : k = 0
  · subst hk
    simp at h
    exact ⟨rfl, h.symm⟩
  · exfalso
    have h1 : (1 : Int) ≤ |k| := Int.one_le_abs hk
    have h2 : c ≤ c * |k| := le_mul_of_one_le_right (le_of_lt hc) h1
    have h3 : |c * k| = c * |k| := by rw [abs_mul, abs_of_pos hc]
    rw [h] at h3
    rw [← h3] at h2
    exact absurd h2 (not_le.mpr he)

/-- Canonical addressing is injective over one tile row: with
element-sized horizontal stride and row-sized vertical stride, a byte
address determines the pixel and the byte index. -/
theorem sliceAddr_inj (s : Slice) (sz : Nat) (W x0 : Int)
    (hx : s.xStride = (sz : Int)) (hy : s.yStride = (sz : Int) * W)
    (hsz : 0 < sz) (hW : 0 < W)
    (x x' y y' : Int) (i i' : Nat)
    (hx1 : x0 ≤ x) (hx2 : x ≤ x0 + W - 1)
    (hx1' : x0 ≤ x') (hx2' : x' ≤ x0 + W - 1)
    (hi : i < sz) (hi' : i' < sz)
    (h : sliceAddr s x y i = sliceAddr s x' y' i') :
    x = x' ∧ y = y' ∧ i = i' := by
  unfold sliceAddr at h
  rw [hx, hy] at h
  have hszZ : (0 : Int) < (sz : Int) := by exact_mod_cast hsz
  have h1 : (sz : Int) * ((y * W + x) - (y' * W + x')) =
      (i' : Int) - (i : Int) := by linear_combination h
  have h3 : |(i' : Int) - (i : Int)| < (sz : Int) := by
    rw [abs_lt]
    omega
  obtain ⟨hAB, hii⟩ := int_mul_eq_of_abs_lt _ _ _ hszZ h1 h3
  have hieq : i = i' := by omega
  have h4 : W * (y - y') = x' - x := by linear_combination hAB
  have h5 : |x' - x| < W := by
    rw [abs_lt]
    omega
  obtain ⟨hyy, hxx⟩ := int_mul_eq_of_abs_lt _ _ _ hW h4 h5
  exact ⟨by omega, by omega, hieq⟩

/-- Every data-window column is covered by some tile of a row. -/
theorem tile_cover (g : Geom) (htw : 1 ≤ g.tw) (x : Int)
    (hx1 : g.minX ≤ x) (hx2 : x ≤ g.maxX) :
    ∃ i, i < numXTiles g ∧ tileMinX g i ≤ x ∧ x ≤ tileMaxX g i := by
  refine ⟨(x - g.minX).toNat / g.tw, ?_, ?_, ?_⟩
  · unfold numXTiles levelWidth
    have hklt : (x - g.minX).toNat < (g.maxX - g.minX + 1).toNat := by
      omega
    have h1 : (x - g.minX).toNat / g.tw ≤
        ((g.maxX - g.minX + 1).toNat - 1) / g.tw :=
      Nat.div_le_div_right (by omega)
    have h2 : ((g.maxX - g.minX + 1).toNat + g.tw - 1) / g.tw =
        ((g.maxX - g.minX + 1).toNat - 1) / g.tw + 1 := by
      have he : (g.maxX - g.minX + 1).toNat + g.tw - 1 =
          ((g.maxX - g.minX + 1).toNat - 1) + g.tw := by omega
      rw [he, Nat.add_div_right _ (by omega)]
    omega
  · unfold tileMinX
    have h1 : (x - g.minX).toNat / g.tw * g.tw ≤ (x - g.minX).toNat :=
      Nat.div_mul_le_self _ _
    have h1' : (((x - g.minX).toNat / g.tw * g.tw : Nat) : Int) ≤
        ((x - g.minX).toNat : Int) := by exact_mod_cast h1
    have hcast : (((x - g.minX).toNat / g.tw : Nat) : Int) * (g.tw : Int) =
        (((x - g.minX).toNat / g.tw * g.tw : Nat) : Int) := by
      push_cast
      ring
    rw [hcast]
    omega
  · unfold tileMaxX
    have hmod : (x - g.minX).toNat % g.tw < g.tw :=
      Nat.mod_lt _ (by omega)
    have hdm : g.tw * ((x - g.minX).toNat / g.tw) +
        (x - g.minX).toNat % g.tw = (x - g.minX).toNat :=
      Nat.div_add_mod _ _
    have hlt : (x - g.minX).toNat <
        ((x - g.minX).toNat / g.tw + 1) * g.tw := by
      calc (x - g.minX).toNat
          = g.tw * ((x - g.minX).toNat / g.tw) +
            (x - g.minX).toNat % g.tw := hdm.symm
        _ < g.tw * ((x - g.minX).toNat / g.tw) + g.tw := by omega
        _ = ((x - g.minX).toNat / g.tw + 1) * g.tw := by ring
    have hlt' : (((x - g.minX).toNat : Nat) : Int) <
        ((((x - g.minX).toNat / g.tw + 1) * g.tw : Nat) : Int) := by
      exact_mod_cast hlt
    apply le_min
    · have hcast : ((((x - g.minX).toNat / g.tw : Nat) : Int) + 1) *
          (g.tw : Int) =
          ((((x - g.minX).toNat / g.tw + 1) * g.tw : Nat) : Int) := by
        push_cast
        ring
      rw [hcast]
      omega
    · exact hx2

/-- Construction of a decode write for a channel. -/
theorem channelRegionWrites_mem_of (g : Geom) (n : String) (s : Slice)
    (sz : Nat) (hs : pixelTypeSize? s.type = some sz)
    (y0 y1 x0 x1 y x : Int) (i : Nat)
    (hy : y0 ≤ y ∧ y ≤ y1) (hx : x0 ≤ x ∧ x ≤ x1) (hi : i < sz) :
    (⟨s.allocId, sliceAddr s x y i, g.fileByte n s.type x y i⟩ : Wr) ∈
      channelRegionWrites g n s y0 y1 x0 x1 := by
  unfold channelRegionWrites
  rw [hs]
  refine List.mem_flatMap.mpr ⟨y, (intRange_mem _ _ _).mpr hy, ?_⟩
  refine List.mem_flatMap.mpr ⟨x, (intRange_mem _ _ _).mpr hx, ?_⟩
  exact List.mem_map.mpr ⟨i, List.mem_range.mpr hi, rfl⟩

/-- Destruction of a decode write for a channel. -/
theorem channelRegionWrites_shape (g : Geom) (n : String) (s : Slice)
    (y0 y1 x0 x1 : Int) :
    ∀ w ∈ channelRegionWrites g n s y0 y1 x0 x1,
      ∃ sz, pixelTypeSize? s.type = some sz ∧
      ∃ (y x : Int) (i : Nat), y0 ≤ y ∧ y ≤ y1 ∧ x0 ≤ x ∧ x ≤ x1 ∧
        i < sz ∧
        w = ⟨s.allocId, sliceAddr s x y i, g.fileByte n s.type x y i⟩ := by
  intro w hw
  unfold channelRegionWrites at hw
  cases hs : pixelTypeSize? s.type with
  | none => rw [hs] at hw; exact absurd hw (by simp)
  | some sz =>
    rw [hs] at hw
    obtain ⟨y, hy, hw⟩ := List.mem_flatMap.mp hw
    obtain ⟨x, hx, hw⟩ := List.mem_flatMap.mp hw
    obtain ⟨i, hi, he⟩ := List.mem_map.mp hw
    rw [intRange_mem] at hy hx
    rw [List.mem_range] at hi
    exact ⟨sz, rfl, y, x, i, hy.1, hy.2, hx.1, hx.2, hi, he.symm⟩

/-- Destruction of a whole-row decode write. -/
theorem rowDecodeWrites_shape (g : Geom) (cb : FrameBuffer) (j : Int) :
    ∀ w ∈ rowDecodeWrites g cb j,
      ∃ i0, i0 < numXTiles g ∧ ∃ q ∈ cb,
        w ∈ channelRegionWrites g q.1 q.2 (tileRowMinY g j)
          (tileRowMaxY g j) (tileMinX g i0) (tileMaxX g i0) := by
  intro w hw
  unfold rowDecodeWrites at hw
  obtain ⟨i0, hi0, hw⟩ := List.mem_flatMap.mp hw
  obtain ⟨q, hq, hw⟩ := List.mem_flatMap.mp hw
  exact ⟨i0, List.mem_range.mp hi0, q, hq, hw⟩

/-- With no bad tiles, the tile loop succeeds and its memory effect is
the concatenated decode writes of the visited tiles into the installed
buffer. -/
theorem decodeTiles_ok_mem (g : Geom) (j : Int)
    (hbad : g.badTiles = []) :
    ∀ (is : List Nat) (d : Data),
      ∃ d', decodeTiles g j is d = .ok d' ∧
        d'.mem = applyWrites d.mem
          (is.flatMap fun i => decodeTileWrites g d.tFileFB i j) := by
  intro is
  induction is with
  | nil => intro d; exact ⟨d, rfl, rfl⟩
  | cons i rest ih =>
    intro d
    rw [decodeTiles]
    have hrt : readTile g d i j = .ok { d with
        mem := applyWrites d.mem (decodeTileWrites g d.tFileFB i j),
        decoded := d.decoded ++ [(i, j)] } := by
      unfold readTile
      rw [if_neg (by rw [hbad]; simp)]
    rw [hrt]
    obtain ⟨d', hok, hmem⟩ := ih { d with
      mem := applyWrites d.mem (decodeTileWrites g d.tFileFB i j),
      decoded := d.decoded ++ [(i, j)] }
    refine ⟨d', hok, ?_⟩
    rw [hmem]
    show applyWrites (applyWrites d.mem (decodeTileWrites g d.tFileFB i j))
      (rest.flatMap fun i' => decodeTileWrites g d.tFileFB i' j) = _
    rw [← applyWrites_append]
    rfl

/-- After decoding a whole row into a canonical cache, every cached
byte of the row region holds the decoded file byte. -/
theorem decode_canonical (g : Geom) (j : Int) (cb : FrameBuffer)
    (htw : 1 ≤ g.tw) (hxw : g.minX ≤ g.maxX)
    (hids : cb.Pairwise fun p q => p.2.allocId ≠ q.2.allocId)
    (hshape : ∀ q ∈ cb, ∃ sz, pixelTypeSize? q.2.type = some sz ∧
      q.2.xStride = (sz : Int) ∧ q.2.yStride = (sz : Int) * levelWidth g)
    (m : Mem) (q : String × Slice) (hq : q ∈ cb) (sz : Nat)
    (hsz : pixelTypeSize? q.2.type = some sz)
    (y x : Int) (i : Nat)
    (hy1 : tileRowMinY g j ≤ y) (hy2 : y ≤ tileRowMaxY g j)
    (hx1 : g.minX ≤ x) (hx2 : x ≤ g.maxX) (hi : i < sz) :
    applyWrites m (rowDecodeWrites g cb j) q.2.allocId
      (sliceAddr q.2 x y i) = g.fileByte q.1 q.2.type x y i := by
  apply applyWrites_val
  · obtain ⟨i0, hi0, ht1, ht2⟩ := tile_cover g htw x hx1 hx2
    unfold rowDecodeWrites
    refine List.mem_flatMap.mpr ⟨i0, List.mem_range.mpr hi0, ?_⟩
    unfold decodeTileWrites
    refine List.mem_flatMap.mpr ⟨q, hq, ?_⟩
    exact channelRegionWrites_mem_of g q.1 q.2 sz hsz _ _ _ _ y x i
      ⟨hy1, hy2⟩ ⟨ht1, ht2⟩ hi
  · intro w hw ha ho
    obtain ⟨i0, hi0, q', hq', hw2⟩ := rowDecodeWrites_shape g cb j w hw
    obtain ⟨sz', hs', y', x', i', hb1, hb2, hb3, hb4, hb5, he⟩ :=
      channelRegionWrites_shape g q'.1 q'.2 _ _ _ _ w hw2
    subst he
    have hqq : q' = q := eq_of_mem_pairwise_ids cb hids q' hq' q hq ha
    subst hqq
    have hsz' : sz' = sz := by
      rw [hs'] at hsz
      exact Option.some.inj hsz
    obtain ⟨szq, hszq, hxs, hys⟩ := hshape q' hq'
    have hszq2 : szq = sz' := by
      rw [hszq] at hs'
      exact Option.some.inj hs'
    rw [hszq2] at hxs hys
    have hW : (0 : Int) < levelWidth g := by
      unfold levelWidth
      omega
    have hxb1 : g.minX ≤ x' := by
      have hmn : g.minX ≤ tileMinX g i0 := by
        unfold tileMinX
        have : (0 : Int) ≤ (i0 : Int) * (g.tw : Int) := by positivity
        omega
      omega
    have hxb2 : x' ≤ g.maxX := by
      have hmx : tileMaxX g i0 ≤ g.maxX := min_le_right _ _
      omega
    obtain ⟨hxe, hye, hie⟩ := sliceAddr_inj q'.2 sz' (levelWidth g) g.minX
      hxs hys (by omega) hW x' x y' y i' i
      hxb1 (by unfold levelWidth; omega)
      hx1 (by unfold levelWidth; omega)
      hb5 (by omega) ho
    show g.fileByte q'.1 q'.2.type x' y' i' = g.fileByte q'.1 q'.2.type x y i
    rw [hxe, hye, hie]

/-- The copy phase over a canonical cache holding the decoded file
bytes: it succeeds, and its memory effect is exactly the canonical copy
writes of the corresponding target channels. -/
theorem copyPhase_canonical (g : Geom) (fb : FrameBuffer)
    (hnd : fb.Pairwise fun p q => p.1 ≠ q.1) (y0 y1 : Int) :
    ∀ (sub : List (String × Slice)) (ofs : Int) (a0 : Nat) (d : Data),
      (∀ p ∈ sub, p ∈ fb ∧ (pixelTypeSize? p.2.type).isSome = true) →
      (∀ q ∈ buildCache g ofs a0 sub, ∀ sz,
        pixelTypeSize? q.2.type = some sz →
        ∀ (y x : Int) (i : Nat), y0 ≤ y → y ≤ y1 →
          g.minX ≤ x → x ≤ g.maxX → i < sz →
          d.mem q.2.allocId (sliceAddr q.2 x y i) =
            g.fileByte q.1 q.2.type x y i) →
      (∀ q ∈ buildCache g ofs a0 sub, ∀ p ∈ fb,
        q.2.allocId ≠ p.2.allocId) →
      ∃ d', copyPhase g fb y0 y1 d (buildCache g ofs a0 sub) = .ok d' ∧
        d'.mem = applyWrites d.mem (copyCanonWrites g sub y0 y1) := by
  intro sub
  induction sub with
  | nil => intro ofs a0 d _ _ _; exact ⟨d, rfl, rfl⟩
  | cons p rest ih =>
    intro ofs a0 d hsubfb hmemc hdisj
    obtain ⟨n, s⟩ := p
    obtain ⟨hmemfb, hrec⟩ := hsubfb (n, s) (List.mem_cons_self _ _)
    obtain ⟨sz, hs⟩ := Option.isSome_iff_exists.mp hrec
    have hbc : buildCache g ofs a0 ((n, s) :: rest) =
        (n, ⟨s.type, a0, -(ofs * sz), (sz : Int),
          (sz : Int) * levelWidth g⟩) :: buildCache g ofs (a0 + 1) rest := by
      rw [buildCache, hs]
    rw [hbc] at hmemc hdisj ⊢
    have hfind : fbFind fb n = some s := fbFind_of_mem_nodup fb hnd n s hmemfb
    rw [copyPhase, hfind]
    dsimp only
    rw [hs]
    dsimp only
    have hcsne : (⟨s.type, a0, -(ofs * sz), (sz : Int),
        (sz : Int) * levelWidth g⟩ : Slice).allocId ≠ s.allocId :=
      hdisj _ (List.mem_cons_self _ _) (n, s) hmemfb
    have hsnap := copySliceBytes_eq_applyWrites
      ⟨s.type, a0, -(ofs * sz), (sz : Int), (sz : Int) * levelWidth g⟩ s
      hcsne (tripleList y0 y1 g.minX g.maxX sz) d.mem
    have hvals : ((tripleList y0 y1 g.minX g.maxX sz).map fun t =>
        (⟨s.allocId, sliceAddr s t.2.1 t.1 t.2.2,
          d.mem (⟨s.type, a0, -(ofs * sz), (sz : Int),
            (sz : Int) * levelWidth g⟩ : Slice).allocId
            (sliceAddr ⟨s.type, a0, -(ofs * sz), (sz : Int),
              (sz : Int) * levelWidth g⟩ t.2.1 t.1 t.2.2)⟩ : Wr)) =
        (tripleList y0 y1 g.minX g.maxX sz).map fun t =>
        (⟨s.allocId, sliceAddr s t.2.1 t.1 t.2.2,
          g.fileByte n s.type t.2.1 t.1 t.2.2⟩ : Wr) := by
      apply List.map_congr_left
      intro t ht
      rw [tripleList_mem] at ht
      have := hmemc _ (List.mem_cons_self _ _) sz hs t.1 t.2.1 t.2.2
        ht.1.1 ht.1.2 ht.2.1.1 ht.2.1.2 ht.2.2
      rw [this]
    rw [hsnap, hvals]
    have hmemc2 : ∀ q ∈ buildCache g ofs (a0 + 1) rest, ∀ sz',
        pixelTypeSize? q.2.type = some sz' →
        ∀ (y x : Int) (i : Nat), y0 ≤ y → y ≤ y1 →
          g.minX ≤ x → x ≤ g.maxX → i < sz' →
          ({ d with mem := applyWrites d.mem ((tripleList y0 y1 g.minX g.maxX sz).map fun t => (⟨s.allocId, sliceAddr s t.2.1 t.1 t.2.2, g.fileByte n s.type t.2.1 t.1 t.2.2⟩ : Wr)) } : Data).mem
            q.2.allocId (sliceAddr q.2 x y i) =
            g.fileByte q.1 q.2.type x y i := by
      intro q hq sz' hsz' y x i hy1 hy2 hx1 hx2 hi
      show applyWrites d.mem _ q.2.allocId (sliceAddr q.2 x y i) = _
      rw [applyWrites_notin_id]
      · exact hmemc q (List.mem_cons_of_mem _ hq) sz' hsz' y x i
          hy1 hy2 hx1 hx2 hi
      · intro w hw
        obtain ⟨t, _, he⟩ := List.mem_map.mp hw
        rw [← he]
        show s.allocId ≠ q.2.allocId
        exact (hdisj q (List.mem_cons_of_mem _ hq) (n, s) hmemfb).symm
    obtain ⟨d', hok, hmem⟩ := ih ofs (a0 + 1)
      { d with mem := applyWrites d.mem ((tripleList y0 y1 g.minX g.maxX sz).map fun t => (⟨s.allocId, sliceAddr s t.2.1 t.1 t.2.2, g.fileByte n s.type t.2.1 t.1 t.2.2⟩ : Wr)) }
      (fun q hq => hsubfb q (List.mem_cons_of_mem _ hq))
      hmemc2 (fun q hq => hdisj q (List.mem_cons_of_mem _ hq))
    refine ⟨d', hok, ?_⟩
    rw [hmem]
    show applyWrites (applyWrites d.mem _) _ = _
    rw [← applyWrites_append]
    have hcanon : copyCanonWrites g ((n, s) :: rest) y0 y1 =
        ((tripleList y0 y1 g.minX g.maxX sz).map fun t =>
          (⟨s.allocId, sliceAddr s t.2.1 t.1 t.2.2,
            g.fileByte n s.type t.2.1 t.1 t.2.2⟩ : Wr)) ++
          copyCanonWrites g rest y0 y1 := by
      show (((n, s) :: rest).flatMap _) = _
      rw [List.flatMap_cons]
      congr 1
      rw [hs]
    rw [hcanon]

/-- Canonical copy writes only target allocations of the target
buffer. -/
theorem copyCanonWrites_ids (g : Geom) (fb : List (String × Slice))
    (y0 y1 : Int) :
    ∀ w ∈ copyCanonWrites g fb y0 y1,
      ∃ p ∈ fb, w.aid = p.2.allocId := by
  intro w hw
  unfold copyCanonWrites at hw
  obtain ⟨p, hp, hw⟩ := List.mem_flatMap.mp hw
  refine ⟨p, hp, ?_⟩
  cases hs : pixelTypeSize? p.2.type with
  | none => rw [hs] at hw; exact absurd hw (by simp)
  | some sz =>
    rw [hs] at hw
    obtain ⟨t, _, he⟩ := List.mem_map.mp hw
    rw [← he]

/-- Row decode writes only target allocations of the cache buffer. -/
theorem rowDecodeWrites_ids (g : Geom) (cb : FrameBuffer) (j : Int) :
    ∀ w ∈ rowDecodeWrites g cb j, ∃ q ∈ cb, w.aid = q.2.allocId := by
  intro w hw
  obtain ⟨i0, _, q, hq, hw2⟩ := rowDecodeWrites_shape g cb j w hw
  obtain ⟨sz, _, y, x, i, _, _, _, _, _, he⟩ :=
    channelRegionWrites_shape g q.1 q.2 _ _ _ _ w hw2
  exact ⟨q, hq, by rw [he]⟩

/-- One row iteration from a consistent state: it succeeds, its effect
on the previously live allocations is exactly the canonical copy
writes of the row, and afterwards row `j` is the consistently cached
row. -/
theorem processRow_canonical (g : Geom) (fb : FrameBuffer)
    (minY maxY : Int)
    (htw : 1 ≤ g.tw) (hxw : g.minX ≤ g.maxX) (hbad : g.badTiles = [])
    (hnd : fb.Pairwise fun p q => p.1 ≠ q.1)
    (hrec : ∀ p ∈ fb, (pixelTypeSize? p.2.type).isSome = true)
    (d : Data) (j : Int) (hj : 0 ≤ j)
    (hids : ∀ p ∈ fb, p.2.allocId < d.nextAlloc)
    (hcache : cacheOK g fb d) :
    ∃ d', processRow g fb minY maxY d j = .ok d' ∧
      d.nextAlloc ≤ d'.nextAlloc ∧
      (∀ (a : Nat) (o : Int), a < d.nextAlloc →
        d'.mem a o =
          applyWrites d.mem (rowCanonWrites g fb minY maxY j) a o) ∧
      d'.cachedTileY = j ∧ cacheRowOK g fb d' j := by
  by_cases hcy : d.cachedTileY = j
  · -- cache hit
    have hrow : cacheRowOK g fb d j := by
      rcases hcache with h | h
      · rw [hcy] at h; omega
      · rw [← hcy]; exact h
    obtain ⟨a0, hcb, hbounds, hcanon⟩ := hrow
    obtain ⟨d', hok, hmem⟩ := copyPhase_canonical g fb hnd
      (max minY (tileRowMinY g j)) (min maxY (tileRowMaxY g j))
      fb (rowOfs g j) a0 d
      (fun p hp => ⟨hp, hrec p hp⟩)
      (fun q hq sz hsz y x i h1 h2 h3 h4 h5 =>
        hcanon q hq sz hsz y x i
          (le_trans (le_max_right _ _) h1)
          (le_trans h2 (min_le_right _ _)) h3 h4 h5)
      (fun q hq p hp => (hbounds q hq).2 p hp)
    have hsk := copyPhase_skeleton g fb (max minY (tileRowMinY g j))
      (min maxY (tileRowMaxY g j)) (buildCache g (rowOfs g j) a0 fb) d
    rw [hok] at hsk
    simp only [resState] at hsk
    obtain ⟨s1, s2, s3, s4, s5, s6, s7⟩ := hsk
    refine ⟨d', ?_, ?_, ?_, ?_, ?_⟩
    · unfold processRow
      rw [if_neg (by rw [hcy]; exact fun h => h rfl)]
      rw [hcb]
      simp only [Option.getD_some]
      exact hok
    · rw [s5]
    · intro a o _
      rw [hmem]
      rfl
    · rw [s3, hcy]
    · refine ⟨a0, ?_, ?_, ?_⟩
      · rw [s2, hcb]
      · intro q hq
        rw [s5]
        exact hbounds q hq
      · intro q hq sz hsz y x i h1 h2 h3 h4 h5
        rw [hmem]
        rw [applyWrites_notin_id]
        · exact hcanon q hq sz hsz y x i h1 h2 h3 h4 h5
        · intro w hw
          obtain ⟨p, hp, he⟩ := copyCanonWrites_ids g fb _ _ w hw
          rw [he]
          exact ((hbounds q hq).2 p hp).symm
  · -- cache miss
    have hcond : j ≠ d.cachedTileY := fun h => hcy h.symm
    have halloc := allocSlices_eq_buildCache g fb
      { d with
        freed := d.freed ++ cacheFreeIds d.cachedBuffer,
        cachedBuffer := some [],
        cachedTileY := j,
        offset := tileRowMinY g j * levelWidth g + g.minX }
      [] rfl hrec (by intro p _ q hq; exact absurd hq (by simp)) hnd
    set bc := buildCache g (tileRowMinY g j * levelWidth g + g.minX)
      d.nextAlloc fb with hbc
    obtain ⟨d4, hdec, hdmem⟩ := decodeTiles_ok_mem g j hbad
      (List.range (numXTiles g))
      { d with
        tFileFB := bc,
        cachedBuffer := some bc,
        cachedTileY := j,
        offset := tileRowMinY g j * levelWidth g + g.minX,
        nextAlloc := d.nextAlloc + fb.length,
        freed := d.freed ++ cacheFreeIds d.cachedBuffer }
    have hdfr := decodeTiles_frame g j (List.range (numXTiles g))
      { d with
        tFileFB := bc,
        cachedBuffer := some bc,
        cachedTileY := j,
        offset := tileRowMinY g j * levelWidth g + g.minX,
        nextAlloc := d.nextAlloc + fb.length,
        freed := d.freed ++ cacheFreeIds d.cachedBuffer }
    rw [hdec] at hdfr
    simp only [resState] at hdfr
    obtain ⟨f1, f2, f3, f4, f5, f6⟩ := hdfr
    have hshape : ∀ q ∈ bc, ∃ sz, pixelTypeSize? q.2.type = some sz ∧
        q.2.xStride = (sz : Int) ∧
        q.2.yStride = (sz : Int) * levelWidth g := by
      intro q hq
      obtain ⟨p, sz, _, _, _, h3, h4, h5, _, _, _⟩ :=
        buildCache_mem g fb (tileRowMinY g j * levelWidth g + g.minX)
          d.nextAlloc q hq
      exact ⟨sz, h3, h4, h5⟩
    have hcanon4 : ∀ q ∈ bc, ∀ sz, pixelTypeSize? q.2.type = some sz →
        ∀ (y x : Int) (i : Nat),
          tileRowMinY g j ≤ y → y ≤ tileRowMaxY g j →
          g.minX ≤ x → x ≤ g.maxX → i < sz →
          d4.mem q.2.allocId (sliceAddr q.2 x y i) =
            g.fileByte q.1 q.2.type x y i := by
      intro q hq sz hsz y x i h1 h2 h3 h4 h5
      rw [hdmem]
      exact decode_canonical g j bc htw hxw
        (buildCache_ids_pairwise g fb _ _) hshape _ q hq sz hsz y x i
        h1 h2 h3 h4 h5
    have hdisj4 : ∀ q ∈ bc, ∀ p ∈ fb, q.2.allocId ≠ p.2.allocId := by
      intro q hq p hp
      have h1 := buildCache_lb g fb _ d.nextAlloc q hq
      have h2 := hids p hp
      omega
    obtain ⟨d', hok, hmem⟩ := copyPhase_canonical g fb hnd
      (max minY (tileRowMinY g j)) (min maxY (tileRowMaxY g j))
      fb (tileRowMinY g j * levelWidth g + g.minX) d.nextAlloc d4
      (fun p hp => ⟨hp, hrec p hp⟩)
      (fun q hq sz hsz y x i h1 h2 h3 h4 h5 =>
        hcanon4 q hq sz hsz y x i (le_trans (le_max_right _ _) h1)
          (le_trans h2 (min_le_right _ _)) h3 h4 h5)
      hdisj4
    have hsk := copyPhase_skeleton g fb (max minY (tileRowMinY g j))
      (min maxY (tileRowMaxY g j)) bc d4
    rw [hok] at hsk
    simp only [resState] at hsk
    obtain ⟨s1, s2, s3, s4, s5, s6, s7⟩ := hsk
    have hmem4 : ∀ (a : Nat) (o : Int), a < d.nextAlloc →
        d4.mem a o = d.mem a o := by
      intro a o ha
      rw [hdmem]
      apply applyWrites_notin_id
      intro w hw
      obtain ⟨q, hq, he⟩ := rowDecodeWrites_ids g bc j w hw
      have := buildCache_lb g fb _ d.nextAlloc q hq
      omega
    refine ⟨d', ?_, ?_, ?_, ?_, ?_⟩
    · unfold processRow
      rw [if_pos hcond, halloc]
      dsimp only
      simp only [List.nil_append, Option.getD_some]
      rw [hdec]
      dsimp only
      rw [f2]
      simp only [Option.getD_some]
      exact hok
    · rw [s5, f5]
      simp
    · intro a o ha
      rw [hmem]
      have := applyWrites_congrOn (fun a => a < d.nextAlloc)
        (copyCanonWrites g fb (max minY (tileRowMinY g j))
          (min maxY (tileRowMaxY g j)))
        d4.mem d.mem (fun a' o' ha' => hmem4 a' o' ha') a o ha
      rw [this]
      rfl
    · rw [s3, f3]
    · refine ⟨d.nextAlloc, ?_, ?_, ?_⟩
      · rw [s2, f2]
        rfl
      · intro q hq
        constructor
        · obtain ⟨p, sz, _, _, _, _, _, _, _, _, hub⟩ :=
            buildCache_mem g fb (tileRowMinY g j * levelWidth g + g.minX)
              d.nextAlloc q hq
          rw [s5, f5]
          simpa using hub
        · exact fun p hp => hdisj4 q hq p hp
      · intro q hq sz hsz y x i h1 h2 h3 h4 h5
        rw [hmem]
        rw [applyWrites_notin_id]
        · exact hcanon4 q hq sz hsz y x i h1 h2 h3 h4 h5
        · intro w hw
          obtain ⟨p, hp, he⟩ := copyCanonWrites_ids g fb _ _ w hw
          rw [he]
          exact (hdisj4 q hq p hp).symm

/-- The whole row loop from a consistent state: it succeeds, its
effect on the previously live allocations is the concatenation of the
canonical copy writes of the visited rows, and the final state is
again consistent. -/
theorem processRows_canonical (g : Geom) (fb : FrameBuffer)
    (minY maxY : Int)
    (htw : 1 ≤ g.tw) (hxw : g.minX ≤ g.maxX) (hbad : g.badTiles = [])
    (hnd : fb.Pairwise fun p q => p.1 ≠ q.1)
    (hrec : ∀ p ∈ fb, (pixelTypeSize? p.2.type).isSome = true) :
    ∀ (rows : List Int) (d : Data),
      (∀ j ∈ rows, 0 ≤ j) →
      (∀ p ∈ fb, p.2.allocId < d.nextAlloc) →
      cacheOK g fb d →
      ∃ d', processRows g fb minY maxY rows d = .ok d' ∧
        d.nextAlloc ≤ d'.nextAlloc ∧
        (∀ (a : Nat) (o : Int), a < d.nextAlloc →
          d'.mem a o = applyWrites d.mem
            (rows.flatMap (rowCanonWrites g fb minY maxY)) a o) ∧
        cacheOK g fb d' := by
  intro rows
  induction rows with
  | nil =>
    intro d _ _ hc
    exact ⟨d, rfl, le_refl _, fun a o _ => rfl, hc⟩
  | cons j rest ih =>
    intro d hrows hids hc
    obtain ⟨d1, hok1, hna1, hmem1, hcy1, hrow1⟩ :=
      processRow_canonical g fb minY maxY htw hxw hbad hnd hrec d j
        (hrows j (List.mem_cons_self _ _)) hids hc
    obtain ⟨d', hok2, hna2, hmem2, hc2⟩ := ih d1
      (fun j' hj' => hrows j' (List.mem_cons_of_mem _ hj'))
      (fun p hp => lt_of_lt_of_le (hids p hp) hna1)
      (Or.inr (by rw [hcy1]; exact hrow1))
    refine ⟨d', ?_, le_trans hna1 hna2, ?_, hc2⟩
    · rw [processRows, hok1]
      exact hok2
    · intro a o ha
      rw [List.flatMap_cons, applyWrites_append]
      rw [hmem2 a o (lt_of_lt_of_le ha hna1)]
      exact applyWrites_congrOn (fun a => a < d.nextAlloc) _ d1.mem
        (applyWrites d.mem (rowCanonWrites g fb minY maxY j))
        (fun a' o' ha' => hmem1 a' o' ha') a o ha

/-- All visited tile rows are nonnegative. -/
theorem visitRows_nonneg (g : Geom) (minY maxY : Int) (hth : 1 ≤ g.th)
    (hlo : g.minY ≤ minY) (hle : minY ≤ maxY) :
    ∀ j ∈ visitRows g minY maxY, 0 ≤ j := by
  have h0 : (0 : Int) < (g.th : Int) := by exact_mod_cast hth
  have hmin0 : 0 ≤ (minY - g.minY).tdiv (g.th : Int) := by
    rw [Int.tdiv_eq_ediv (by omega) (by omega)]
    exact Int.ediv_nonneg (by omega) (by omega)
  have hmono : (minY - g.minY).tdiv (g.th : Int) ≤
      (maxY - g.minY).tdiv (g.th : Int) := by
    rw [Int.tdiv_eq_ediv (by omega) (by omega),
      Int.tdiv_eq_ediv (by omega) (by omega)]
    exact Int.ediv_le_ediv h0 (by omega)
  intro j hj
  unfold visitRows at hj
  by_cases hdec : g.lineOrder = .DECREASING_Y
  · rw [if_pos hdec] at hj
    have he : (minY - g.minY).tdiv (g.th : Int) - 1 =
        (maxY - g.minY).tdiv (g.th : Int) -
          (((maxY - g.minY).tdiv (g.th : Int) -
            (minY - g.minY).tdiv (g.th : Int) + 1).toNat : Int) := by
      omega
    rw [he, rowSeq_desc] at hj
    obtain ⟨i, hi, hje⟩ := List.mem_map.mp hj
    rw [List.mem_range] at hi
    omega
  · rw [if_neg hdec] at hj
    have he : (maxY - g.minY).tdiv (g.th : Int) + 1 =
        (minY - g.minY).tdiv (g.th : Int) +
          (((maxY - g.minY).tdiv (g.th : Int) -
            (minY - g.minY).tdiv (g.th : Int) + 1).toNat : Int) := by
      omega
    rw [he, rowSeq_asc] at hj
    obtain ⟨i, hi, hje⟩ := List.mem_map.mp hj
    rw [List.mem_range] at hi
    omega

/-- A canonical run of the buffered read algorithm: from a consistent
state, readPixels succeeds, reinstalls the entry buffer, writes
exactly the canonical bytes into the previously live allocations, and
leaves a consistent state. -/
theorem runCanonical (g : Geom) (d : Data) (s1 s2 : Int)
    (hth : 1 ≤ g.th) (htw : 1 ≤ g.tw) (hxw : g.minX ≤ g.maxX)
    (hbad : g.badTiles = [])
    (hnd : d.tFileFB.Pairwise fun p q => p.1 ≠ q.1)
    (hrec : ∀ p ∈ d.tFileFB, (pixelTypeSize? p.2.type).isSome = true)
    (hids : ∀ p ∈ d.tFileFB, p.2.allocId < d.nextAlloc)
    (hcache : cacheOK g d.tFileFB d)
    (hr1 : g.minY ≤ min s1 s2) (hr2 : max s1 s2 ≤ g.maxY) :
    ∃ d', bufferedReadPixels g d s1 s2 = .ok d' ∧
      d'.tFileFB = d.tFileFB ∧ d.nextAlloc ≤ d'.nextAlloc ∧
      (∀ (a : Nat) (o : Int), a < d.nextAlloc →
        d'.mem a o = applyWrites d.mem
          (canonWrites g d.tFileFB (min s1 s2) (max s1 s2)) a o) ∧
      cacheOK g d.tFileFB d' := by
  obtain ⟨d2, hok, hna, hmem, hc⟩ := processRows_canonical g d.tFileFB
    (min s1 s2) (max s1 s2) htw hxw hbad hnd hrec
    (visitRows g (min s1 s2) (max s1 s2)) d
    (visitRows_nonneg g (min s1 s2) (max s1 s2) hth hr1 (by omega))
    hids hcache
  refine ⟨{ d2 with tFileFB := d.tFileFB }, ?_, rfl, hna, ?_, ?_⟩
  · unfold bufferedReadPixels
    rw [if_neg (by omega), hok]
  · intro a o ha
    show d2.mem a o = _
    exact hmem a o ha
  · exact hc

/-- C7: for a well-formed tiled file read with an installed buffer of
recognized, header-matching channel types and a consistent cache
state, calling readPixels twice with the same in-window scanline range
succeeds both times and leaves every byte reachable through the target
buffer slices identical after the second call to its state after the
first call — the second call changes nothing observable in the caller
buffer. -/
theorem readPixels_idempotent (g : Geom) (d : Data) (s1 s2 : Int)
    (hth : 1 ≤ g.th) (htw : 1 ≤ g.tw) (hxw : g.minX ≤ g.maxX)
    (hbad : g.badTiles = [])
    (hnd : d.tFileFB.Pairwise fun p q => p.1 ≠ q.1)
    (hrec : ∀ p ∈ d.tFileFB, (pixelTypeSize? p.2.type).isSome = true)
    (hids : ∀ p ∈ d.tFileFB, p.2.allocId < d.nextAlloc)
    (hcache : cacheOK g d.tFileFB d)
    (hr1 : g.minY ≤ min s1 s2) (hr2 : max s1 s2 ≤ g.maxY) :
    ∃ d1 d2, bufferedReadPixels g d s1 s2 = .ok d1 ∧
      bufferedReadPixels g d1 s1 s2 = .ok d2 ∧
      ∀ p ∈ d.tFileFB, ∀ (x y : Int) (i : Nat),
        d2.mem p.2.allocId (sliceAddr p.2 x y i) =
          d1.mem p.2.allocId (sliceAddr p.2 x y i) := by
  obtain ⟨d1, hok1, hfb1, hna1, hmem1, hc1⟩ :=
    runCanonical g d s1 s2 hth htw hxw hbad hnd hrec hids hcache hr1 hr2
  obtain ⟨d2, hok2, hfb2, hna2, hmem2, hc2⟩ :=
    runCanonical g d1 s1 s2 hth htw hxw hbad
      (by rw [hfb1]; exact hnd) (by rw [hfb1]; exact hrec)
      (by
        rw [hfb1]
        intro p hp
        exact lt_of_lt_of_le (hids p hp) hna1)
      (by rw [hfb1]; exact hc1) hr1 hr2
  refine ⟨d1, d2, hok1, hok2, ?_⟩
  intro p hp x y i
  have ha : p.2.allocId < d.nextAlloc := hids p hp
  have h1 := hmem1 p.2.allocId (sliceAddr p.2 x y i) ha
  have h2 := hmem2 p.2.allocId (sliceAddr p.2 x y i)
    (lt_of_lt_of_le ha hna1)
  rw [hfb1] at h2
  rw [applyWrites_lastVal] at h1 h2
  rw [h2]
  cases hl : lastVal (canonWrites g d.tFileFB (min s1 s2) (max s1 s2))
      p.2.allocId (sliceAddr p.2 x y i) with
  | some v =>
    show v = d1.mem p.2.allocId (sliceAddr p.2 x y i)
    rw [h1, hl]
  | none =>
    rfl

/-- Witness for C7: a concrete double read of scanlines `[0, 3]` of
the 4x4 two-tile-row file succeeds twice and leaves the first byte of
the target storage unchanged by the second call. -/
theorem readPixels_idempotent_witness :
    ∃ d1 d2, bufferedReadPixels gEx dEx 0 3 = .ok d1 ∧
      bufferedReadPixels gEx d1 0 3 = .ok d2 ∧
      d2.mem 0 0 = d1.mem 0 0 := by
  obtain ⟨d1, d2, h1, h2, h3⟩ := readPixels_idempotent gEx dEx 0 3
    (by decide) (by decide) (by decide) rfl
    (by simp [dEx, fbEx]) (by decide) (by decide) (Or.inl rfl)
    (by decide) (by decide)
  refine ⟨d1, d2, h1, h2, ?_⟩
  have := h3 ("A", ⟨.HALF, 0, 0, 2, 8⟩) (by simp [dEx, fbEx]) 0 0 0
  simpa [sliceAddr] using this

/-- C4: in tiled mode `setFrameBuffer fb` sets the cached tile-row
index to the `-1` sentinel before installing `fb` on the tiled decoder
whenever `fb` names a channel absent from the header channel list or a
channel whose slice type differs from the header type for that name;
when every channel of `fb` matches the header, the cached row index is
left unchanged.  In both cases `fb` ends up installed. -/
theorem setFrameBuffer_invalidates_on_mismatch (g : Geom) (d : Data)
    (fb : FrameBuffer) :
    ((∃ p ∈ fb, chFind g.headerChannels p.1 = none ∨
        ∃ t, chFind g.headerChannels p.1 = some t ∧ t ≠ p.2.type) →
      (setFrameBuffer g d fb).cachedTileY = -1 ∧
      (setFrameBuffer g d fb).tFileFB = fb) ∧
    ((∀ p ∈ fb, chFind g.headerChannels p.1 = some p.2.type) →
      (setFrameBuffer g d fb).cachedTileY = d.cachedTileY ∧
      (setFrameBuffer g d fb).tFileFB = fb) := by
  constructor
  · rintro ⟨p, hp, hbad⟩
    have hany : (fb.any fun p =>
        match chFind g.headerChannels p.1 with
        | none => true
        | some t => decide (t ≠ p.2.type)) = true := by
      rw [List.any_eq_true]
      refine ⟨p, hp, ?_⟩
      rcases hbad with h | ⟨t, ht, hne⟩
      · rw [h]
      · rw [ht]
        exact decide_eq_true hne
    unfold setFrameBuffer
    rw [if_pos hany]
    exact ⟨rfl, rfl⟩
  · intro hall
    have hany : (fb.any fun p =>
        match chFind g.headerChannels p.1 with
        | none => true
        | some t => decide (t ≠ p.2.type)) = false := by
      rw [List.any_eq_false]
      intro p hp
      rw [hall p hp]
      simp
    unfold setFrameBuffer
    rw [if_neg (by rw [hany]; exact Bool.false_ne_true)]
    exact ⟨rfl, rfl⟩

/-- Witness for C4 at concrete inputs: a buffer whose only channel has
an unrecognized type invalidates the cache of `dEx`; `fbEx` matching
the header leaves the cached index unchanged. -/
theorem setFrameBuffer_invalidates_on_mismatch_witness :
    ((setFrameBuffer gEx dEx fbExBadType).cachedTileY = -1 ∧
     (setFrameBuffer gEx dEx fbExBadType).tFileFB = fbExBadType) ∧
    ((setFrameBuffer gEx dEx fbEx).cachedTileY = dEx.cachedTileY ∧
     (setFrameBuffer gEx dEx fbEx).tFileFB = fbEx) :=
  ⟨(setFrameBuffer_invalidates_on_mismatch gEx dEx fbExBadType).1
      ⟨("A", ⟨.other 7, 0, 0, 1, 4⟩), by simp [fbExBadType],
        Or.inr ⟨.HALF, by simp [gEx, chFind], by decide⟩⟩,
    (setFrameBuffer_invalidates_on_mismatch gEx dEx fbEx).2
      (by
        intro p hp
        simp only [fbEx, List.mem_singleton] at hp
        subst hp
        rfl)⟩

/-- C6: a tiled-mode readPixels call whose normalized scanline range
leaves the data window fails with a range error, and the state carried
by the error is exactly the entry state: neither the target buffer nor
the cache is mutated. -/
theorem readPixels_out_of_range (g : Geom) (d : Data) (s1 s2 : Int)
    (h : min s1 s2 < g.minY ∨ max s1 s2 > g.maxY) :
    bufferedReadPixels g d s1 s2 = .error (.range, d) := by
  unfold bufferedReadPixels
  rw [if_pos h]

/-- Witness for C6: reading scanline -5 of the `[0,3]` window fails
with a range error and the carried state is the entry state. -/
theorem readPixels_out_of_range_witness :
    bufferedReadPixels gEx dEx (-5) (-5) = .error (.range, dEx) :=
  readPixels_out_of_range gEx dEx (-5) (-5) (by decide)

/-- C8: the tile rows visited by a tiled-mode readPixels call run from
`maxDy` down to `minDy` when the line order is `DECREASING_Y`, and from
`minDy` up to `maxDy` otherwise. -/
theorem visitRows_direction (g : Geom) (minY maxY : Int)
    (hth : 1 ≤ g.th) (hlo : g.minY ≤ minY) (hle : minY ≤ maxY) :
    (g.lineOrder = .DECREASING_Y →
      visitRows g minY maxY =
        (List.range ((maxY - g.minY).tdiv (g.th : Int) -
            (minY - g.minY).tdiv (g.th : Int) + 1).toNat).map
          (fun i : Nat =>
            (maxY - g.minY).tdiv (g.th : Int) - (i : Int))) ∧
    (g.lineOrder ≠ .DECREASING_Y →
      visitRows g minY maxY =
        (List.range ((maxY - g.minY).tdiv (g.th : Int) -
            (minY - g.minY).tdiv (g.th : Int) + 1).toNat).map
          (fun i : Nat =>
            (minY - g.minY).tdiv (g.th : Int) + (i : Int))) := by
  have h0 : (0 : Int) < (g.th : Int) := by exact_mod_cast hth
  have hmono : (minY - g.minY).tdiv (g.th : Int) ≤
      (maxY - g.minY).tdiv (g.th : Int) := by
    rw [Int.tdiv_eq_ediv (by omega) (by omega),
      Int.tdiv_eq_ediv (by omega) (by omega)]
    exact Int.ediv_le_ediv h0 (by omega)
  set minDy := (minY - g.minY).tdiv (g.th : Int) with hmin
  set maxDy := (maxY - g.minY).tdiv (g.th : Int) with hmax
  have hn : ((maxDy - minDy + 1).toNat : Int) = maxDy - minDy + 1 := by omega
  constructor
  · intro hdec
    unfold visitRows
    rw [← hmin, ← hmax, if_pos hdec]
    have he : minDy - 1 = maxDy - ((maxDy - minDy + 1).toNat : Int) := by omega
    rw [he, rowSeq_desc]
  · intro hdec
    unfold visitRows
    rw [← hmin, ← hmax, if_neg hdec]
    have he : maxDy + 1 = minDy + ((maxDy - minDy + 1).toNat : Int) := by omega
    rw [he, rowSeq_asc]

/-- Witness for C8 at concrete inputs: for the increasing-order file
`gEx` the rows visited for scanlines `[0, 3]` are `[0, 1]`. -/
theorem visitRows_direction_witness :
    visitRows gEx 0 3 =
      (List.range ((3 - gEx.minY).tdiv (gEx.th : Int) -
          (0 - gEx.minY).tdiv (gEx.th : Int) + 1).toNat).map
        (fun i : Nat => (0 - gEx.minY).tdiv (gEx.th : Int) + (i : Int)) :=
  (visitRows_direction gEx 0 3 (by decide) (by decide) (by decide)).2
    (by decide)

/-- C9: in tiled mode `setFrameBuffer` never releases or alters the
cached tile-row buffer or its storage: the byte memory, the release
log, the allocator, the cached frame buffer, the row offset and the
decode log are all unchanged; the cached row index is either left
unchanged or set to the `-1` sentinel. -/
theorem setFrameBuffer_preserves_cache_storage (g : Geom) (d : Data)
    (fb : FrameBuffer) :
    ((setFrameBuffer g d fb).cachedBuffer = d.cachedBuffer ∧
     (setFrameBuffer g d fb).mem = d.mem ∧
     (setFrameBuffer g d fb).freed = d.freed ∧
     (setFrameBuffer g d fb).nextAlloc = d.nextAlloc ∧
     (setFrameBuffer g d fb).offset = d.offset ∧
     (setFrameBuffer g d fb).decoded = d.decoded) ∧
    ((setFrameBuffer g d fb).cachedTileY = d.cachedTileY ∨
     (setFrameBuffer g d fb).cachedTileY = -1) := by
  constructor
  · unfold setFrameBuffer
    split
    · exact ⟨rfl, rfl, rfl, rfl, rfl, rfl⟩
    · exact ⟨rfl, rfl, rfl, rfl, rfl, rfl⟩
  · unfold setFrameBuffer
    split
    · exact Or.inr rfl
    · exact Or.inl rfl

/-- C5: cache discipline of the tile-row loop.  On a cache hit (the
cached row index already equals the visited row `j`) no tile of the
row is decoded — the decode log is unchanged — and the existing cached
storage is reused as is: the cached buffer, the allocator, the release
log, the row offset and the cached row index are all unchanged,
whatever the outcome of the copy phase.  On a cache miss that
completes, the single cache slot is replaced: the storage of the
previous cache entry is released, row `j` becomes the cached row, and
the decode log grows by exactly the tiles of row `j` — so at most one
tile row is cached at a time, and a row is never decoded again while
it remains the cached row. -/
theorem processRow_cache_discipline (g : Geom) (oldB : FrameBuffer)
    (minY maxY : Int) (d : Data) (j : Int) :
    (d.cachedTileY = j →
      (resState (processRow g oldB minY maxY d j)).decoded = d.decoded ∧
      (resState (processRow g oldB minY maxY d j)).cachedBuffer =
        d.cachedBuffer ∧
      (resState (processRow g oldB minY maxY d j)).cachedTileY =
        d.cachedTileY ∧
      (resState (processRow g oldB minY maxY d j)).nextAlloc =
        d.nextAlloc ∧
      (resState (processRow g oldB minY maxY d j)).freed = d.freed ∧
      (resState (processRow g oldB minY maxY d j)).offset = d.offset ∧
      (resState (processRow g oldB minY maxY d j)).tFileFB = d.tFileFB) ∧
    (d.cachedTileY ≠ j →
      ∀ d', processRow g oldB minY maxY d j = .ok d' →
        d'.cachedTileY = j ∧
        d'.decoded = d.decoded ++
          (List.range (numXTiles g)).map (fun i => (i, j)) ∧
        d'.freed = d.freed ++ cacheFreeIds d.cachedBuffer) := by
  constructor
  · intro h
    unfold processRow
    rw [if_neg (by rw [h]; exact fun hne => hne rfl)]
    obtain ⟨a1, a2, a3, a4, a5, a6, a7⟩ :=
      copyPhase_skeleton g oldB (max minY (tileRowMinY g j))
        (min maxY (tileRowMaxY g j)) (d.cachedBuffer.getD []) d
    exact ⟨a7, a2, a3, a5, a6, a4, a1⟩
  · intro h d' hok
    unfold processRow at hok
    rw [if_pos (Ne.symm h)] at hok
    cases ha : allocSlices g { d with
        freed := d.freed ++ cacheFreeIds d.cachedBuffer,
        cachedBuffer := some [],
        cachedTileY := j,
        offset := tileRowMinY g j * levelWidth g + g.minX } oldB with
    | error e => rw [ha] at hok; simp at hok
    | ok d2 =>
      rw [ha] at hok
      dsimp only at hok
      have hal := allocSlices_frame g oldB { d with
        freed := d.freed ++ cacheFreeIds d.cachedBuffer,
        cachedBuffer := some [],
        cachedTileY := j,
        offset := tileRowMinY g j * levelWidth g + g.minX }
      rw [ha] at hal
      obtain ⟨-, hal2, -, -, hal5, hal6⟩ := hal
      cases hd : decodeTiles g j (List.range (numXTiles g))
          { d2 with tFileFB := d2.cachedBuffer.getD [] } with
      | error e => rw [hd] at hok; simp at hok
      | ok d4 =>
        rw [hd] at hok
        dsimp only at hok
        have hdf := decodeTiles_frame g j (List.range (numXTiles g))
          { d2 with tFileFB := d2.cachedBuffer.getD [] }
        rw [hd] at hdf
        obtain ⟨-, -, hdf3, -, -, hdf6⟩ := hdf
        have hdd := decodeTiles_ok_decoded g j (List.range (numXTiles g))
          { d2 with tFileFB := d2.cachedBuffer.getD [] } d4 hd
        have hcp := copyPhase_skeleton g oldB (max minY (tileRowMinY g j))
          (min maxY (tileRowMaxY g j)) (d4.cachedBuffer.getD []) d4
        rw [hok] at hcp
        obtain ⟨-, -, c3, -, -, c6, c7⟩ := hcp
        refine ⟨c3.trans (hdf3.trans hal2), ?_,
          c6.trans (hdf6.trans hal5)⟩
        exact c7.trans (hdd.trans (congrArg
          (fun l => l ++ (List.range (numXTiles g)).map (fun i => (i, j)))
          hal6))

/-- Witness for C5 at concrete inputs: a hit on cached row 0 of
`dExHit` decodes nothing and keeps the cache; a miss from the fresh
state `dEx` caches row 0, decodes its two tiles and releases nothing
(no previous entry). -/
theorem processRow_cache_discipline_witness :
    ((resState (processRow gEx fbEx 0 1 dExHit 0)).decoded =
        dExHit.decoded ∧
      (resState (processRow gEx fbEx 0 1 dExHit 0)).cachedBuffer =
        dExHit.cachedBuffer ∧
      (resState (processRow gEx fbEx 0 1 dExHit 0)).cachedTileY =
        dExHit.cachedTileY ∧
      (resState (processRow gEx fbEx 0 1 dExHit 0)).nextAlloc =
        dExHit.nextAlloc ∧
      (resState (processRow gEx fbEx 0 1 dExHit 0)).freed =
        dExHit.freed ∧
      (resState (processRow gEx fbEx 0 1 dExHit 0)).offset =
        dExHit.offset ∧
      (resState (processRow gEx fbEx 0 1 dExHit 0)).tFileFB =
        dExHit.tFileFB) ∧
    ((resState (processRow gEx fbEx 0 1 dEx 0)).cachedTileY = 0 ∧
      (resState (processRow gEx fbEx 0 1 dEx 0)).decoded =
        dEx.decoded ++
          (List.range (numXTiles gEx)).map (fun i => (i, (0 : Int))) ∧
      (resState (processRow gEx fbEx 0 1 dEx 0)).freed =
        dEx.freed ++ cacheFreeIds dEx.cachedBuffer) :=
  ⟨(processRow_cache_discipline gEx fbEx 0 1 dExHit 0).1 rfl,
    (processRow_cache_discipline gEx fbEx 0 1 dEx 0).2 (by decide)
      (resState (processRow gEx fbEx 0 1 dEx 0)) rfl⟩

/-- C2: the copy phase copies only channels present in both the cached
buffer and the target buffer.  A channel named in the target buffer
that is absent from the cached buffer is silently skipped: whether the
copy phase succeeds depends only on the channels of the intersection
(no error is raised on account of a target-only channel), and every
byte written lands in an allocation addressed by a target slice of a
channel of the intersection — bytes of any other allocation are
unchanged. -/
theorem copyPhase_copies_intersection_only (g : Geom) (oldB : FrameBuffer)
    (y0 y1 : Int) :
    ∀ (cb : List (String × Slice)) (d : Data),
    ((∀ p ∈ cb, ∀ ts : Slice, fbFind oldB p.1 = some ts →
        (pixelTypeSize? ts.type).isSome = true) →
      ∃ d', copyPhase g oldB y0 y1 d cb = .ok d') ∧
    (∀ a : Nat,
      (∀ p ∈ cb, ∀ ts : Slice, fbFind oldB p.1 = some ts →
        ts.allocId ≠ a) →
      ∀ o : Int,
        (resState (copyPhase g oldB y0 y1 d cb)).mem a o = d.mem a o) := by
  intro cb
  induction cb with
  | nil =>
    intro d
    constructor
    · intro _
      exact ⟨d, rfl⟩
    · intro a _ o
      rfl
  | cons p rest ih =>
    intro d
    obtain ⟨n, fs⟩ := p
    constructor
    · intro hrec
      rw [copyPhase]
      cases hf : fbFind oldB n with
      | none =>
        exact (ih d).1 fun q hq => hrec q (List.mem_cons_of_mem _ hq)
      | some ts =>
        dsimp only
        have hsome := hrec (n, fs) (List.mem_cons_self _ _) ts hf
        cases hps : pixelTypeSize? ts.type with
        | none => rw [hps] at hsome; exact absurd hsome (by simp)
        | some sz =>
          exact (ih _).1 fun q hq => hrec q (List.mem_cons_of_mem _ hq)
    · intro a hne o
      rw [copyPhase]
      cases hf : fbFind oldB n with
      | none =>
        exact (ih d).2 a
          (fun q hq => hne q (List.mem_cons_of_mem _ hq)) o
      | some ts =>
        dsimp only
        cases hps : pixelTypeSize? ts.type with
        | none => rfl
        | some sz =>
          dsimp only
          have hstep := (ih { d with mem := copySliceBytes fs ts d.mem (tripleList y0 y1 g.minX g.maxX sz) }).2 a
            (fun q hq => hne q (List.mem_cons_of_mem _ hq)) o
          rw [hstep]
          exact copySliceBytes_other fs ts
            (tripleList y0 y1 g.minX g.maxX sz) d.mem a o
            (Ne.symm (hne (n, fs) (List.mem_cons_self _ _) ts hf))

/-- Witness for C2 at concrete inputs: with cache `fbC2cache` (channel
`A` only) and target `fbC2target` (channels `A` and `B`, where `B` is
absent from the cache and even has an unrecognized type), the copy
phase succeeds and the bytes of allocation 5 (the `B` storage) are
unchanged. -/
theorem copyPhase_copies_intersection_only_witness :
    copyPhase gEx fbC2target 0 1 dEx fbC2cache =
      .ok (resState (copyPhase gEx fbC2target 0 1 dEx fbC2cache)) ∧
    (resState (copyPhase gEx fbC2target 0 1 dEx fbC2cache)).mem 5 0 =
      dEx.mem 5 0 := by
  obtain ⟨d', hd'⟩ :=
    (copyPhase_copies_intersection_only gEx fbC2target 0 1 fbC2cache dEx).1
      (by
        intro p hp ts hts
        simp only [fbC2cache, List.mem_singleton] at hp
        subst hp
        rw [show fbFind fbC2target "A" = some ⟨.HALF, 0, 0, 2, 8⟩ from rfl]
          at hts
        cases hts
        rfl)
  refine ⟨by rw [hd']; rfl, ?_⟩
  exact (copyPhase_copies_intersection_only gEx fbC2target 0 1
      fbC2cache dEx).2 5
    (by
      intro p hp ts hts
      simp only [fbC2cache, List.mem_singleton] at hp
      subst hp
      rw [show fbFind fbC2target "A" = some ⟨.HALF, 0, 0, 2, 8⟩ from rfl]
        at hts
      cases hts
      decide) 0

/-- C10: in tiled mode installing a frame buffer with no channels never
invalidates the tile-row cache: the mismatch check is vacuous over an
empty channel set, the cached row index is left unchanged, and the
empty buffer is installed on the tiled decoder. -/
theorem setFrameBuffer_empty_keeps_cache (g : Geom) (d : Data) :
    (setFrameBuffer g d []).cachedTileY = d.cachedTileY ∧
    (setFrameBuffer g d []).tFileFB = [] :=
  ⟨rfl, rfl⟩

/-- C1 counterexample: with a decode failure on tile `(0, 0)`,
readPixels fails with the tile-read error, and at that moment the
buffer installed on the tiled decoder is the scratch cache buffer, not
the buffer installed at entry — the scratch substitution is not undone
on this exit path, refuting the claim for the failure case. -/
theorem readPixels_decode_failure_keeps_scratch :
    errKind (bufferedReadPixels gExBad dEx 0 0) = some .tileRead ∧
    (resState (bufferedReadPixels gExBad dEx 0 0)).tFileFB ≠
      dEx.tFileFB := by
  decide

/-- C1 amended: on normal return the buffer installed on the tiled
decoder equals the buffer installed at entry, and the up-front
range-error failure leaves the whole state untouched; but a tile
decode failure after the scratch install leaves the scratch buffer
installed (see the counterexample). -/
theorem readPixels_restores_buffer_on_success_or_range_error
    (g : Geom) (d : Data) (s1 s2 : Int) :
    (∀ d', bufferedReadPixels g d s1 s2 = .ok d' →
      d'.tFileFB = d.tFileFB) ∧
    (∀ d', bufferedReadPixels g d s1 s2 = .error (.range, d') →
      d' = d) := by
  unfold bufferedReadPixels
  by_cases hr : min s1 s2 < g.minY ∨ max s1 s2 > g.maxY
  · rw [if_pos hr]
    constructor
    · intro d' h
      exact absurd h (by simp)
    · intro d' h
      simp only [Except.error.injEq, Prod.mk.injEq] at h
      exact h.2.symm
  · rw [if_neg hr]
    cases hp : processRows g d.tFileFB (min s1 s2) (max s1 s2)
        (visitRows g (min s1 s2) (max s1 s2)) d with
    | error ep =>
      dsimp only
      constructor
      · intro d' h
        exact absurd h (by simp)
      · intro d' h
        obtain ⟨ee, dd⟩ := ep
        have hk := processRows_error g d.tFileFB (min s1 s2) (max s1 s2)
          (visitRows g (min s1 s2) (max s1 s2)) d ee dd hp
        simp only [Except.error.injEq, Prod.mk.injEq] at h
        rw [h.1] at hk
        rcases hk with h3 | h3 <;> exact absurd h3 (by simp)
    | ok d2 =>
      dsimp only
      constructor
      · intro d' h
        simp only [Except.ok.injEq] at h
        rw [← h]
      · intro d' h
        exact absurd h (by simp)

/-- Witness for the amended C1: a successful concrete read restores
the entry buffer on the tiled decoder. -/
theorem readPixels_restores_buffer_witness :
    (resState (bufferedReadPixels gEx dEx 0 3)).tFileFB = dEx.tFileFB :=
  (readPixels_restores_buffer_on_success_or_range_error gEx dEx 0 3).1
    (resState (bufferedReadPixels gEx dEx 0 3)) rfl

/-- C3 counterexample: `setFrameBuffer` performs no rejection — it
completes normally on a buffer whose only channel has an unrecognized
element type (merely invalidating the cache) — and the next readPixels
call raises the unknown-pixel-type error at runtime, inside the
allocation phase of the buffered read algorithm.  The failure branch
is therefore reachable after a completed install, refuting the claim
that the type is rejected at construction time and never at runtime. -/
theorem unknownType_raised_at_runtime :
    errKind (bufferedReadPixels gEx (setFrameBuffer gEx dEx fbExBadType)
      0 0) = some .unknownType := by
  decide

/-- Every row iteration can fail only with the tile-read error when
all channels of the saved user buffer, and all target slices a lookup
can produce, have recognized types. -/
theorem processRow_error_recognized (g : Geom) (oldB : FrameBuffer)
    (minY maxY : Int) (d : Data) (j : Int) (e : Err) (dx : Data)
    (hmem : ∀ p ∈ oldB, (pixelTypeSize? p.2.type).isSome = true)
    (hlook : ∀ (n : String) (ts : Slice), fbFind oldB n = some ts →
      (pixelTypeSize? ts.type).isSome = true)
    (h : processRow g oldB minY maxY d j = .error (e, dx)) :
    e = .tileRead := by
  unfold processRow at h
  by_cases hc : j ≠ d.cachedTileY
  · rw [if_pos hc] at h
    obtain ⟨d2, ha⟩ := allocSlices_ok_of_recognized g oldB { d with
      freed := d.freed ++ cacheFreeIds d.cachedBuffer,
      cachedBuffer := some [],
      cachedTileY := j,
      offset := tileRowMinY g j * levelWidth g + g.minX } hmem
    rw [ha] at h
    dsimp only at h
    cases hd : decodeTiles g j (List.range (numXTiles g))
        { d2 with tFileFB := d2.cachedBuffer.getD [] } with
    | error ep =>
      rw [hd] at h
      cases h
      exact decodeTiles_error g j _ _ e dx hd
    | ok d4 =>
      rw [hd] at h
      dsimp only at h
      obtain ⟨d5, hcp⟩ := copyPhase_ok_of_recognized g oldB
        (max minY (tileRowMinY g j)) (min maxY (tileRowMaxY g j)) hlook
        (d4.cachedBuffer.getD []) d4
      rw [hcp] at h
      exact absurd h (by simp)
  · rw [if_neg hc] at h
    obtain ⟨d5, hcp⟩ := copyPhase_ok_of_recognized g oldB
      (max minY (tileRowMinY g j)) (min maxY (tileRowMaxY g j)) hlook
      (d.cachedBuffer.getD []) d
    rw [hcp] at h
    exact absurd h (by simp)

/-- The whole row loop can fail only with the tile-read error under
the same typing assumptions. -/
theorem processRows_error_recognized (g : Geom) (oldB : FrameBuffer)
    (minY maxY : Int)
    (hmem : ∀ p ∈ oldB, (pixelTypeSize? p.2.type).isSome = true)
    (hlook : ∀ (n : String) (ts : Slice), fbFind oldB n = some ts →
      (pixelTypeSize? ts.type).isSome = true) :
    ∀ (rows : List Int) (d : Data) (e : Err) (dx : Data),
      processRows g oldB minY maxY rows d = .error (e, dx) →
      e = .tileRead := by
  intro rows
  induction rows with
  | nil => intro d e dx h; exact absurd h (by simp [processRows])
  | cons j rest ih =>
    intro d e dx h
    rw [processRows] at h
    cases hp : processRow g oldB minY maxY d j with
    | error ep =>
      rw [hp] at h
      cases h
      exact processRow_error_recognized g oldB minY maxY d j e dx
        hmem hlook hp
    | ok d2 =>
      rw [hp] at h
      exact ih d2 e dx h

/-- C3 amended: when every channel of the installed buffer is found in
the header with the same declared type and all header types are
recognized (a buffer that passes the header comparison), the
unknown-pixel-type failure branch inside readPixels is unreachable —
no error of that kind can be raised during the allocation or copy
phase.  Nothing, however, rejects an unrecognized type at install
time: the counterexample shows the branch is reached at runtime after
a completed `setFrameBuffer`. -/
theorem readPixels_no_unknownType_for_matching_buffer (g : Geom)
    (d : Data) (s1 s2 : Int)
    (hhdr : ∀ p ∈ g.headerChannels, (pixelTypeSize? p.2).isSome = true)
    (hfb : ∀ p ∈ d.tFileFB, chFind g.headerChannels p.1 = some p.2.type) :
    ∀ (e : Err) (dx : Data),
      bufferedReadPixels g d s1 s2 = .error (e, dx) →
      e ≠ .unknownType := by
  have hmem : ∀ p ∈ d.tFileFB, (pixelTypeSize? p.2.type).isSome = true :=
    fun p hp => hhdr (p.1, p.2.type) (chFind_mem _ _ _ (hfb p hp))
  have hlook : ∀ (n : String) (ts : Slice), fbFind d.tFileFB n = some ts →
      (pixelTypeSize? ts.type).isSome = true :=
    fun n ts h => hmem (n, ts) (fbFind_mem _ _ _ h)
  intro e dx h
  unfold bufferedReadPixels at h
  by_cases hr : min s1 s2 < g.minY ∨ max s1 s2 > g.maxY
  · rw [if_pos hr] at h
    simp only [Except.error.injEq, Prod.mk.injEq] at h
    rw [← h.1]
    simp
  · rw [if_neg hr] at h
    cases hp : processRows g d.tFileFB (min s1 s2) (max s1 s2)
        (visitRows g (min s1 s2) (max s1 s2)) d with
    | error ep =>
      rw [hp] at h
      obtain ⟨ee, dd⟩ := ep
      simp only [Except.error.injEq, Prod.mk.injEq] at h
      rw [← h.1]
      rw [processRows_error_recognized g d.tFileFB (min s1 s2)
        (max s1 s2) hmem hlook (visitRows g (min s1 s2) (max s1 s2))
        d ee dd hp]
      simp
    | ok d2 =>
      rw [hp] at h
      exact absurd h (by simp)

/-- Witness for the amended C3: at concrete inputs the only failure a
matching buffer can produce is the tile-read error, which is not the
unknown-type error. -/
theorem readPixels_no_unknownType_witness :
    Err.tileRead ≠ Err.unknownType :=
  readPixels_no_unknownType_for_matching_buffer gExBad dEx 0 0
    (by decide) (by decide) .tileRead
    (resState (bufferedReadPixels gExBad dEx 0 0)) rfl

end Imf
